import Mathlib

/-!
Verification development for the ChainAbuse report monitor.

Shallow embedding of the detection / deduplication / extraction logic of
`src/app/api/monitor-chainabuse/route.ts` (class `CleanReportMonitor`) and of the
alternate signature-based monitor `src/startup/monitor.ts` (class
`ServerSideMonitor`).  JavaScript strings are modelled as `List Char` (the
monitored page text is ASCII, where JS UTF-16 code units, code points and
`Char` coincide); JS 32-bit integer arithmetic is modelled on `Int` with
explicit reduction mod `2 ^ 32`; the specific regular expressions appearing in
the source are modelled by dedicated matching functions with JS semantics
(left-to-right scan, greedy bounded repetition, case folding for the `i` flag).
-/

/-! ### Character classes (JS `\d`, `\s`, `\w`) and case-insensitive matching -/

/-- JS `\d`, i.e. `[0-9]`, by code point. -/
def isDigitChar (c : Char) : Bool := 48 ≤ c.toNat && c.toNat ≤ 57

/-- JS `\s` (ECMA-262 WhiteSpace ∪ LineTerminator), by code point. -/
def isSpaceChar (c : Char) : Bool :=
  c.toNat == 9 || c.toNat == 10 || c.toNat == 11 || c.toNat == 12 || c.toNat == 13 ||
  c.toNat == 32 || c.toNat == 160 || c.toNat == 5760 ||
  (8192 ≤ c.toNat && c.toNat ≤ 8202) || c.toNat == 8232 || c.toNat == 8233 ||
  c.toNat == 8239 || c.toNat == 8287 || c.toNat == 12288 || c.toNat == 65279

/-- JS `\w`, i.e. `[A-Za-z0-9_]`, by code point. -/
def isWordChar (c : Char) : Bool :=
  (65 ≤ c.toNat && c.toNat ≤ 90) || (97 ≤ c.toNat && c.toNat ≤ 122) ||
  (48 ≤ c.toNat && c.toNat ≤ 57) || c.toNat == 95

/-- ASCII lower-casing on code points, the fragment of JS case folding exercised
by the source's ASCII literals. -/
def lowerCode (n : Nat) : Nat := if 65 ≤ n && n ≤ 90 then n + 32 else n

/-- Case-insensitive comparison of an input character against a lowercase
literal character (JS `i` flag on ASCII). -/
def ciChar (c l : Char) : Bool := lowerCode c.toNat == l.toNat

/-- Does `cs` start with the (lowercase) literal `lit`, case-insensitively? -/
def ciStartsWith : List Char → List Char → Bool
  | _, [] => true
  | [], _ :: _ => false
  | c :: cs, l :: ls => ciChar c l && ciStartsWith cs ls

/-- Length of the maximal run of characters satisfying `p` at the head
(the greedy munch of `p+` / `p*`). -/
def spanLen (p : Char → Bool) : List Char → Nat
  | [] => 0
  | c :: cs => if p c then spanLen p cs + 1 else 0

/-- Exact (case-sensitive) list-of-chars starts-with. -/
def listStartsWith : List Char → List Char → Bool
  | _, [] => true
  | [], _ :: _ => false
  | c :: cs, l :: ls => c == l && listStartsWith cs ls

/-- JS `String.prototype.includes`: `needle` occurs as a contiguous substring. -/
def jsIncludes : List Char → List Char → Bool
  | hay, needle =>
    match hay with
    | [] => listStartsWith [] needle
    | _ :: rest => listStartsWith hay needle || jsIncludes rest needle

/-- Case-insensitive occurrence of a (lowercase) literal anywhere in the text. -/
def ciOccurs : List Char → List Char → Bool
  | hay, needle =>
    match hay with
    | [] => ciStartsWith [] needle
    | _ :: rest => ciStartsWith hay needle || ciOccurs rest needle

/-- The ASCII fragment of JS `String.prototype.toLowerCase` (the inputs the
monitor lower-cases are ASCII). -/
def jsToLowerChar (c : Char) : Char :=
  if 65 ≤ c.toNat && c.toNat ≤ 90 then Char.ofNat (c.toNat + 32) else c

/-- JS `toLowerCase` on a character list. -/
def jsToLower (cs : List Char) : List Char := cs.map jsToLowerChar

/-! ### The 31-style string hash shared by `createContentHash`
(route.ts lines 339-345) and `simpleHash` (monitor.ts lines 82-90):
`hash = ((hash << 5) - hash) + charCode; hash = hash & hash`. -/

/-- JS `ToInt32`: reduce mod `2^32` into `[-2^31, 2^31)`. -/
def jsToInt32 (n : Int) : Int :=
  let m := n % 4294967296
  if m < 2147483648 then m else m - 4294967296

/-- One iteration of the hash loop.  `hash << 5` wraps to int32, the
subtraction and addition are exact, and `hash & hash` forces `ToInt32`. -/
def jsHashStep (h : Int) (c : Nat) : Int := jsToInt32 (jsToInt32 (h * 32) - h + c)

/-- The full hash loop over the string's code units, starting from 0. -/
def jsHashInt (cs : List Char) : Int := cs.foldl (fun h c => jsHashStep h c.toNat) 0

/-- `Math.abs(hash).toString(16)`: absolute value rendered in lowercase hex. -/
def jsHashHex (cs : List Char) : String := String.mk (Nat.toDigits 16 (jsHashInt cs).natAbs)

/-- `simpleHash` of `src/startup/monitor.ts` lines 82-90. -/
def simpleHash (s : String) : String := jsHashHex s.data

/-! ### `createContentHash` normalization, route.ts lines 328-346.
The six `.replace` steps are modelled by scanners with JS `replace`/`gi`
semantics, then whitespace collapse and `trim`, then the hash loop. -/

/-- Step 1 unit alternation `(seconds?|minutes?|hours?|days?)`: literal
(case-insensitive) followed by a greedy optional `s`.  Returns the number of
characters consumed.  The optional `s` never needs backtracking: dropping it
leaves an `s` as the next character, which cannot satisfy the following
`\s+`. -/
def optSLen : List Char → Nat
  | [] => 0
  | c :: _ => if ciChar c 's' then 1 else 0

def matchUnitLen (cs : List Char) : Option Nat :=
  if ciStartsWith cs ('s' :: 'e' :: 'c' :: 'o' :: 'n' :: 'd' :: []) then
    some (6 + optSLen (cs.drop 6))
  else if ciStartsWith cs ('m' :: 'i' :: 'n' :: 'u' :: 't' :: 'e' :: []) then
    some (6 + optSLen (cs.drop 6))
  else if ciStartsWith cs ('h' :: 'o' :: 'u' :: 'r' :: []) then
    some (4 + optSLen (cs.drop 4))
  else if ciStartsWith cs ('d' :: 'a' :: 'y' :: []) then
    some (3 + optSLen (cs.drop 3))
  else none

/-- One match attempt of `/\d+\s+(seconds?|minutes?|hours?|days?)\s+ago/i` at
the head of `cs`; returns the matched length.  Each greedy munch is final: a
shorter `\d+` leaves a digit where whitespace is required, and a shorter `\s+`
leaves whitespace where a letter is required. -/
def matchTimeAgo (cs : List Char) : Option Nat :=
  let d := spanLen isDigitChar cs
  if d = 0 then none else
  let cs1 := cs.drop d
  let w1 := spanLen isSpaceChar cs1
  if w1 = 0 then none else
  let cs2 := cs1.drop w1
  match matchUnitLen cs2 with
  | none => none
  | some u =>
    let cs3 := cs2.drop u
    let w2 := spanLen isSpaceChar cs3
    if w2 = 0 then none else
    let cs4 := cs3.drop w2
    if ciStartsWith cs4 ('a' :: 'g' :: 'o' :: []) then some (d + w1 + u + w2 + 3)
    else none

theorem matchTimeAgo_pos {cs : List Char} {n : Nat} (h : matchTimeAgo cs = some n) :
    1 ≤ n := by
  simp only [matchTimeAgo] at h
  split at h
  · exact absurd h (by simp)
  · split at h
    · exact absurd h (by simp)
    · split at h
      · exact absurd h (by simp)
      · split at h
        · exact absurd h (by simp)
        · split at h
          · simp only [Option.some.injEq] at h; omega
          · exact absurd h (by simp)

/-- Step 1 scanner with explicit fuel (structural recursion so that the
kernel can evaluate it; `fuel ≥ length` always suffices because every step
consumes at least one character). -/
def replaceTimeAgoAux : Nat → List Char → List Char
  | _, [] => []
  | 0, cs => cs
  | fuel + 1, c :: rest =>
    match matchTimeAgo (c :: rest) with
    | some n => "TIME_AGO".data ++ replaceTimeAgoAux fuel ((c :: rest).drop n)
    | none => c :: replaceTimeAgoAux fuel rest

/-- Step 1: `.replace(/\d+\s+(seconds?|minutes?|hours?|days?)\s+ago/gi, 'TIME_AGO')`,
as a left-to-right global scan. -/
def replaceTimeAgo (cs : List Char) : List Char := replaceTimeAgoAux cs.length cs

/-- Fueled scanner for a global case-insensitive literal replacement. -/
def replaceLitCIAux (lit rep : List Char) : Nat → List Char → List Char
  | _, [] => []
  | 0, cs => cs
  | fuel + 1, c :: rest =>
    if ciStartsWith (c :: rest) lit then
      rep ++ replaceLitCIAux lit rep fuel ((c :: rest).drop lit.length)
    else c :: replaceLitCIAux lit rep fuel rest

/-- A global case-insensitive literal replacement scanner (steps 2 and 4, and
the `usd` removal of `isAmountUSDSignificant`): `lit` is the (nonempty)
lowercase literal, `rep` the replacement text. -/
def replaceLitCI (lit rep : List Char) (cs : List Char) : List Char :=
  replaceLitCIAux lit rep cs.length cs

/-- Fueled scanner for step 3. -/
def replaceWord1ReportedAux : Nat → List Char → List Char
  | _, [] => []
  | 0, cs => cs
  | fuel + 1, c :: rest =>
    if isWordChar c &&
        ciStartsWith rest ('1' :: 'r' :: 'e' :: 'p' :: 'o' :: 'r' :: 't' :: 'e' :: 'd' :: []) then
      c :: (" Reported".data ++ replaceWord1ReportedAux fuel (rest.drop 9))
    else c :: replaceWord1ReportedAux fuel rest

/-- Step 3: `.replace(/(\w)1Reported/gi, '$1 Reported')` — a word character
followed by the literal `1Reported`; the word character is preserved. -/
def replaceWord1Reported (cs : List Char) : List Char :=
  replaceWord1ReportedAux cs.length cs

/-- Fueled scanner for step 5. -/
def replaceDomainLetterAux : Nat → List Char → List Char
  | _, [] => []
  | 0, cs => cs
  | fuel + 1, c :: rest =>
    if ciStartsWith (c :: rest) ('d' :: 'o' :: 'm' :: 'a' :: 'i' :: 'n' :: []) then
      match rest.drop 5 with
      | l :: after =>
        if 97 ≤ lowerCode l.toNat && lowerCode l.toNat ≤ 122 then
          "Domain ".data ++ (l :: replaceDomainLetterAux fuel after)
        else c :: replaceDomainLetterAux fuel rest
      | [] => c :: replaceDomainLetterAux fuel rest
    else c :: replaceDomainLetterAux fuel rest

/-- Step 5: `.replace(/Domain([a-z])/gi, 'Domain $1')` — with the `i` flag the
class `[a-z]` also matches uppercase letters; the captured letter is
preserved. -/
def replaceDomainLetter (cs : List Char) : List Char :=
  replaceDomainLetterAux cs.length cs

/-- Group characters of step 6's capture `[^\d\n•]`. -/
def sbGroupChar (c : Char) : Bool :=
  !isDigitChar c && c.toNat != 10 && c.toNat != 8226

/-- JS `.` (used by step 6's trailing `.*`): anything but a line terminator. -/
def notLineTerm (c : Char) : Bool :=
  c.toNat != 10 && c.toNat != 13 && c.toNat != 8232 && c.toNat != 8233

/-- After the capture group of step 6: either the end of input (`$` with the
optional group skipped) or `\s+\d+.*$` (the optional group taken; `.*` reaches
the end exactly when no line terminator remains). -/
def sbTailOk (t : List Char) : Bool :=
  match t with
  | [] => true
  | _ =>
    let w2 := spanLen isSpaceChar t
    let t2 := t.drop w2
    let d := spanLen isDigitChar t2
    decide (1 ≤ w2) && decide (1 ≤ d) && (t2.drop d).all notLineTerm

/-- Step 6 match attempt after the literal `Submitted by`: `\s+` (greedy,
backtracking from the maximal run), then the lazy capture `([^\d\n•]+?)`
(growing from one character), then `sbTailOk`.  Returns the capture `$1` of
the first successful assignment in JS backtracking order. -/
def sbMatchAt (rest : List Char) : Option (List Char) :=
  let W := spanLen isSpaceChar rest
  (List.range W).findSome? (fun k =>
    let w := W - k
    let r := rest.drop w
    let maxG := spanLen sbGroupChar r
    (List.range maxG).findSome? (fun j =>
      let g := j + 1
      if sbTailOk (r.drop g) then some (r.take g) else none))

/-- Step 6: `.replace(/Submitted by\s+([^\d\n•]+?)(?:\s+\d+.*)?$/gi, 'Submitted by $1')`.
Any match necessarily extends to the end of the string (both alternatives of
the tail end at `$`), so the first matching position wins and the result is
the prefix, the literal replacement, and the capture. -/
def replaceSubmittedBy (cs : List Char) : List Char :=
  match cs with
  | [] => []
  | c :: rest =>
    if ciStartsWith (c :: rest)
        ('s' :: 'u' :: 'b' :: 'm' :: 'i' :: 't' :: 't' :: 'e' :: 'd' :: ' ' :: 'b' :: 'y' :: []) then
      match sbMatchAt ((c :: rest).drop 12) with
      | some g1 => "Submitted by ".data ++ g1
      | none => c :: replaceSubmittedBy rest
    else c :: replaceSubmittedBy rest

/-- Fueled scanner for step 7a. -/
def collapseWsAux : Nat → List Char → List Char
  | _, [] => []
  | 0, cs => cs
  | fuel + 1, c :: rest =>
    if isSpaceChar c then ' ' :: collapseWsAux fuel (rest.dropWhile isSpaceChar)
    else c :: collapseWsAux fuel rest

/-- Step 7a: `.replace(/\s+/g, ' ')` — collapse each maximal whitespace run to
a single space. -/
def collapseWs (cs : List Char) : List Char := collapseWsAux cs.length cs

/-- Step 7b: `.trim()`. -/
def jsTrim (cs : List Char) : List Char :=
  ((cs.dropWhile isSpaceChar).reverse.dropWhile isSpaceChar).reverse

/-- The full normalization pipeline of `createContentHash`
(route.ts lines 329-337), steps applied in source order. -/
def cleanTextForHash (cs : List Char) : List Char :=
  jsTrim (collapseWs (replaceSubmittedBy (replaceDomainLetter (replaceLitCI
    ('d' :: 'o' :: 'm' :: 'a' :: 'i' :: 'n' :: 'p' :: 'a' :: 'n' :: 'c' :: 'a' :: 'k' :: 'e' :: 's' :: 'w' :: 'a' :: 'p' :: [])
    "Domain pancakeswap".data
    (replaceWord1Reported (replaceLitCI
      ('a' :: 'g' :: 'o' :: '1' :: 'r' :: 'e' :: 'p' :: 'o' :: 'r' :: 't' :: 'e' :: 'd' :: [])
      "ago Reported".data
      (replaceTimeAgo cs)))))))

/-- `createContentHash` of route.ts lines 328-346: normalize, hash, render as
absolute-value hex. -/
def createContentHash (text : String) : String :=
  jsHashHex (cleanTextForHash text.data)

/-- The fields of `cleanReportContent`'s result that feed the snapshot hash
(route.ts lines 1336-1347): the claims only concern `cleanContent`, `author`
and `category`. -/
structure CleanedData where
  cleanContent : String
  author : String
  category : String

/-- The fingerprint computed by `createReportSnapshot`, route.ts line 1456:
`createContentHash(cleanedData.cleanContent + cleanedData.author)`.  The
category and the position are not part of the hash input (the position enters
only the display id `hash_position` on line 1457). -/
def snapshotContentHash (d : CleanedData) : String :=
  createContentHash (d.cleanContent ++ d.author)

/-! ### Freshness classifier: the `isVeryFresh` check inside
`checkForNewReports`, route.ts lines 1865-1877. -/

/-- One match attempt of JS `/[5-9]\d+\s+seconds/` at the head of `cs`
(no `i` flag in the source; it is applied to already lower-cased text). -/
def fresh59GuardHere (cs : List Char) : Bool :=
  match cs with
  | [] => false
  | c :: rest =>
    (53 ≤ c.toNat && c.toNat ≤ 57) &&
    (let d := spanLen isDigitChar rest
     let afterD := rest.drop d
     let w := spanLen isSpaceChar afterD
     decide (1 ≤ d) && decide (1 ≤ w) &&
     listStartsWith (afterD.drop w) ('s' :: 'e' :: 'c' :: 'o' :: 'n' :: 'd' :: 's' :: []))

/-- `timeAgoText.match(/[5-9]\d+\s+seconds/)` is non-null: a match exists at
some position. -/
def fresh59GuardMatches : List Char → Bool
  | [] => false
  | c :: rest => fresh59GuardHere (c :: rest) || fresh59GuardMatches rest

/-- The in-code freshness check `isVeryFresh` over a report's `timeAgo` text,
route.ts lines 1865-1877: lower-case the text, then a disjunction of
`includes` tests plus the seconds guard. -/
def isVeryFresh (timeAgo : String) : Bool :=
  let t := jsToLower timeAgo.data
  jsIncludes t "5 minutes ago".data ||
  jsIncludes t "4 minutes ago".data ||
  jsIncludes t "3 minutes ago".data ||
  jsIncludes t "2 minutes ago".data ||
  jsIncludes t "1 minute ago".data ||
  jsIncludes t "0 minutes ago".data ||
  jsIncludes t "few seconds ago".data ||
  jsIncludes t "just now".data ||
  (jsIncludes t "seconds ago".data && !fresh59GuardMatches t)

/-! ### Monetary-significance filter `isAmountUSDSignificant`,
route.ts lines 1510-1562. -/

/-- Fueled scanner for `.replace(/amount\s+lost/gi, '')`. -/
def replaceAmountLostAux : Nat → List Char → List Char
  | _, [] => []
  | 0, cs => cs
  | fuel + 1, c :: rest =>
    if ciStartsWith (c :: rest) ('a' :: 'm' :: 'o' :: 'u' :: 'n' :: 't' :: []) then
      let afterAmount := (c :: rest).drop 6
      let w := spanLen isSpaceChar afterAmount
      if 1 ≤ w && ciStartsWith (afterAmount.drop w) ('l' :: 'o' :: 's' :: 't' :: []) then
        replaceAmountLostAux fuel (afterAmount.drop (w + 4))
      else c :: replaceAmountLostAux fuel rest
    else c :: replaceAmountLostAux fuel rest

/-- The scanner for `.replace(/amount\s+lost/gi, '')`. -/
def replaceAmountLost (cs : List Char) : List Char :=
  replaceAmountLostAux cs.length cs

/-- First match of `/([0-9,.\s]+)/` (no `g` flag): the maximal run of the
class at the first position where it is nonempty. -/
def firstNumRun (cs : List Char) : Option (List Char) :=
  match cs with
  | [] => none
  | c :: rest =>
    if isDigitChar c || c == ',' || c == '.' || isSpaceChar c then
      some ((c :: rest).takeWhile (fun x => isDigitChar x || x == ',' || x == '.' || isSpaceChar x))
    else firstNumRun rest

/-- Numeric value of a digit string. -/
def digitsToNat (cs : List Char) : Nat := cs.foldl (fun a c => a * 10 + (c.toNat - 48)) 0

/-- JS `parseFloat`, modelled for the digit/dot strings produced by the caller
(the number run with commas and whitespace already removed): leading digits,
an optional fraction, anything further ignored; `NaN` (`none`) when no digit
is found in the integer or fraction position.  The value `intPart.fracPart`
is represented exactly as a scaled pair (numerator, number of fraction
digits), i.e. the rational `num / 10 ^ scale`; the double rounding of the JS
runtime is immaterial to the monitor's integer-valued comparisons. -/
def jsParseFloat (cs : List Char) : Option (Nat × Nat) :=
  let d := cs.takeWhile isDigitChar
  let rest := cs.drop d.length
  match rest with
  | '.' :: rest2 =>
    let f := rest2.takeWhile isDigitChar
    if d.isEmpty && f.isEmpty then none
    else some (digitsToNat d * 10 ^ f.length + digitsToNat f, f.length)
  | _ => if d.isEmpty then none else some (digitsToNat d, 0)

/-- `isAmountUSDSignificant` of route.ts lines 1510-1562.  Despite the
comments mentioning a $10,000 threshold, the final test is `amount >= 1`. -/
def isAmountUSDSignificant (amountLostString : String) : Bool :=
  if amountLostString.data.isEmpty then false
  else if !jsIncludes (jsToLower amountLostString.data) ('u' :: 's' :: 'd' :: []) &&
          !amountLostString.data.contains '$' then false
  else
    let cleanAmount := jsTrim ((((replaceLitCI ('u' :: 's' :: 'd' :: []) []
      (replaceAmountLost amountLostString.data)).filter (fun c => !(c == '$'))).filter
        (fun c => !(c == ':'))))
    match firstNumRun cleanAmount with
    | none => false
    | some run =>
      let numberString := jsTrim ((run.filter (fun c => !(c == ','))).filter
        (fun c => !isSpaceChar c))
      match jsParseFloat numberString with
      | none => false
      | some amount => decide (10 ^ amount.2 ≤ amount.1)

/-! ### Dedup store and the poll cycle of `checkForNewReports`,
route.ts lines 1564-2063.

The browser-facing stages (page fetch, DOM extraction, detail-page lookups)
are external collaborators; the cycle model takes their product: the list of
snapshot items in page order, each carrying its `contentHash` (from
`createReportSnapshot`), its `timeAgo` text and the resolved
`finalAmountLost` string of line 1932.  The Telegram transport is modelled by
`sendOk`: `sendTelegramMessage` rethrows on failure (line 324), so a failed
send aborts the cycle into the `catch` of line 2047, skipping everything
after the `await` of line 2014. -/

/-- One cycle item as seen by the detection loop. -/
structure CycleItem where
  contentHash : String
  timeAgo : String
  finalAmountLost : String

/-- The monitor fields involved in detection (class fields, lines 33-37). -/
structure MonitorState where
  checkCount : Nat
  lastReportHashes : List String
  sentReportHashes : List String

/-- `Set.prototype.add`: insertion-ordered, no duplicates. -/
def jsSetAdd (s : List String) (x : String) : List String :=
  if s.contains x then s else s ++ [x]

/-- `new Set(list)`: first-occurrence order. -/
def jsSetOfList (l : List String) : List String := l.foldl jsSetAdd []

/-- One iteration of the `currentReports.forEach` detection loop,
lines 1861-1889: a hash absent from both the previous snapshot and the dedup
store is either queued for notification (fresh) or immediately added to the
dedup store (not fresh). -/
def detectStep (last : List String) (acc : List CycleItem × List String)
    (item : CycleItem) : List CycleItem × List String :=
  if !last.contains item.contentHash && !acc.2.contains item.contentHash then
    if isVeryFresh item.timeAgo then (acc.1 ++ [item], acc.2)
    else (acc.1, jsSetAdd acc.2 item.contentHash)
  else acc

/-- The detection loop over all current reports. -/
def detectPhase (items : List CycleItem) (last sent : List String) :
    List CycleItem × List String :=
  items.foldl (detectStep last) ([], sent)

/-- The `for (const newReport of newReports)` loop, lines 1896-2018: an
insignificant amount marks the hash as sent without notifying (lines
1935-1941); a successful send notifies and then adds the hash (lines
2014-2016); a failed send throws, aborting the loop with the hash not added.
Returns the dedup store, the notified hashes, and whether the loop completed
without an exception. -/
def notifyPhase (sendOk : String → Bool) :
    List CycleItem → List String → List String → List String × List String × Bool
  | [], sent, notif => (sent, notif, true)
  | item :: rest, sent, notif =>
    if !isAmountUSDSignificant item.finalAmountLost then
      notifyPhase sendOk rest (jsSetAdd sent item.contentHash) notif
    else if sendOk item.contentHash then
      notifyPhase sendOk rest (jsSetAdd sent item.contentHash) (notif ++ [item.contentHash])
    else (sent, notif, false)

/-- The post-cycle eviction, lines 2022-2027: over 2000 entries, keep the
last 2000 in insertion order (`Array.from(set).slice(-2000)`). -/
def evictSentHashes (l : List String) : List String :=
  if 2000 < l.length then l.drop (l.length - 2000) else l

/-- One poll cycle of `checkForNewReports` (state and notification effects).
`checkCount` is incremented first (line 1569); the first cycle is the
baseline branch of lines 1820-1855 (every current hash is added to the dedup
store, no report notification is emitted, and the branch returns before the
eviction code; the startup Telegram message of line 1845 is not a report
notification and is sent after the store was already updated and saved).  A
steady cycle runs detection, replaces the snapshot (lines 1891-1892), runs
the notify loop, and evicts only when the loop completed (an exception skips
lines 2020-2027).  Returns the new state and the notified hashes. -/
def checkForNewReports (st : MonitorState) (items : List CycleItem)
    (sendOk : String → Bool) : MonitorState × List String :=
  let cc := st.checkCount + 1
  let currentHashes := jsSetOfList (items.map CycleItem.contentHash)
  if cc = 1 then
    ({ checkCount := cc, lastReportHashes := currentHashes,
       sentReportHashes := (items.map CycleItem.contentHash).foldl jsSetAdd
         st.sentReportHashes }, [])
  else
    let det := detectPhase items st.lastReportHashes st.sentReportHashes
    let notif := notifyPhase sendOk det.1 det.2 []
    let sentFinal := if notif.2.2 then evictSentHashes notif.1 else notif.1
    ({ checkCount := cc, lastReportHashes := currentHashes,
       sentReportHashes := sentFinal }, notif.2.1)

/-! ### The alternate signature-based monitor, `src/startup/monitor.ts`. -/

/-- Fueled decimal rendering (any `fuel > n` is exact). -/
def natToDecimalAux : Nat → Nat → List Char
  | 0, n => [Nat.digitChar n]
  | fuel + 1, n =>
    if n < 10 then [Nat.digitChar n]
    else natToDecimalAux fuel (n / 10) ++ [Nat.digitChar (n % 10)]

/-- Decimal rendering of a natural number (the JS template interpolation
`${length}` and `${Date.now()}` in `createPageSignature`). -/
def natToDecimal (n : Nat) : List Char := natToDecimalAux n n

/-- The pre-hash signature string of `createPageSignature`
(monitor.ts lines 73-79): content length, three section hashes, and the
current clock value `Date.now()` (modelled as the input `now`), joined by
underscores. -/
def pageSignatureString (content : String) (now : Nat) : String :=
  let cs := content.data
  let len := cs.length
  String.mk (natToDecimal len) ++ "_" ++
  simpleHash (String.mk (cs.take 1000)) ++ "_" ++
  simpleHash (String.mk ((cs.drop (len / 2)).take 1000)) ++ "_" ++
  simpleHash (String.mk (cs.drop (len - 1000))) ++ "_" ++
  String.mk (natToDecimal now)

/-- `createPageSignature` (monitor.ts lines 73-80): the final hash of the
signature string. -/
def createPageSignature (content : String) (now : Nat) : String :=
  simpleHash (pageSignatureString content now)

/-- The post-baseline branch of `checkForChanges` (monitor.ts line 112):
the page is treated as changed exactly when the fresh signature differs from
the stored one. -/
def checkTreatsAsChanged (lastPageSignature : String) (content : String)
    (now : Nat) : Bool :=
  createPageSignature content now != lastPageSignature

/-! ### Address extraction, route.ts lines 609-789 (`quickAnalyzeForTelegram`);
the same block is repeated verbatim at lines 1023-1201 inside
`cleanReportContent`.  Nine regex families are scanned over the whole text
(each a literal lead followed by a greedy bounded character-class run), their
matches concatenated in pattern order, then folded through overlap rejection,
cleaning, validation and fragment resolution. -/

/-- Bitcoin-style Base58: `[1-9A-HJ-NP-Za-km-z]`. -/
def isBase58 (c : Char) : Bool :=
  (49 ≤ c.toNat && c.toNat ≤ 57) || (65 ≤ c.toNat && c.toNat ≤ 72) ||
  (74 ≤ c.toNat && c.toNat ≤ 78) || (80 ≤ c.toNat && c.toNat ≤ 90) ||
  (97 ≤ c.toNat && c.toNat ≤ 107) || (109 ≤ c.toNat && c.toNat ≤ 122)

/-- Bech32 data part: `[02-9ac-hj-np-z]`. -/
def isBech32Data (c : Char) : Bool :=
  c.toNat == 48 || (50 ≤ c.toNat && c.toNat ≤ 57) || c.toNat == 97 ||
  (99 ≤ c.toNat && c.toNat ≤ 104) || (106 ≤ c.toNat && c.toNat ≤ 110) ||
  (112 ≤ c.toNat && c.toNat ≤ 122)

/-- `[a-z0-9]`. -/
def isLowerAlnum (c : Char) : Bool :=
  (97 ≤ c.toNat && c.toNat ≤ 122) || (48 ≤ c.toNat && c.toNat ≤ 57)

/-- `[a-fA-F0-9]`. -/
def isHexDigit (c : Char) : Bool :=
  (48 ≤ c.toNat && c.toNat ≤ 57) || (97 ≤ c.toNat && c.toNat ≤ 102) ||
  (65 ≤ c.toNat && c.toNat ≤ 70)

/-- A raw regex match: start offset in the text, and the matched characters. -/
structure RawMatch where
  start : Nat
  str : List Char
deriving DecidableEq, Repr

/-- The case-sensitive literal lead of a pattern, as per-character tests
(a character class like `[13]` is one test). -/
def leadOk : List (Char → Bool) → List Char → Bool
  | [], _ => true
  | _ :: _, [] => false
  | p :: ps, c :: cs => p c && leadOk ps cs

/-- One match attempt of `lead` + `cls{lo,hi}` (greedy, no continuation, so
the greedy take `min run hi` is final); returns the matched length. -/
def tryPatMatch (lead : List (Char → Bool)) (cls : Char → Bool) (lo hi : Nat)
    (cs : List Char) : Option Nat :=
  if leadOk lead cs then
    let run := spanLen cls (cs.drop lead.length)
    if lo ≤ run then some (lead.length + min run hi) else none
  else none

theorem tryPatMatch_pos {lead : List (Char → Bool)} {cls : Char → Bool}
    {lo hi : Nat} {cs : List Char} {n : Nat} (hp : 1 ≤ lead.length + min lo hi)
    (h : tryPatMatch lead cls lo hi cs = some n) : 1 ≤ n := by
  simp only [tryPatMatch] at h
  split at h
  · split at h
    · simp only [Option.some.injEq] at h
      rename_i hrun
      have h2 : min lo hi ≤ min (spanLen cls (cs.drop lead.length)) hi := by
        simp only [Nat.min_def]
        split <;> split <;> omega
      omega
    · exact absurd h (by simp)
  · exact absurd h (by simp)

/-- Fueled scan for `patMatchAll`. -/
def patMatchAllAux (lead : List (Char → Bool)) (cls : Char → Bool) (lo hi : Nat) :
    Nat → List Char → Nat → List RawMatch
  | _, [], _ => []
  | 0, _, _ => []
  | fuel + 1, c :: rest, pos =>
    match tryPatMatch lead cls lo hi (c :: rest) with
    | some n =>
      { start := pos, str := (c :: rest).take n } ::
        patMatchAllAux lead cls lo hi fuel ((c :: rest).drop n) (pos + n)
    | none => patMatchAllAux lead cls lo hi fuel rest (pos + 1)

/-- `String.prototype.matchAll` for such a pattern: scan left to right,
continuing after each match (every pattern used consumes at least one
character per match, so `length` fuel is exact). -/
def patMatchAll (lead : List (Char → Bool)) (cls : Char → Bool) (lo hi : Nat)
    (cs : List Char) (pos : Nat) : List RawMatch :=
  patMatchAllAux lead cls lo hi cs.length cs pos

/-- Single-character test for a literal character. -/
def litChar (l : Char) : Char → Bool := fun c => c == l

/-- The concatenation of all nine pattern scans, lines 615-625 (identically
lines 1029-1039), in source order: Bitcoin Legacy, Bitcoin Bech32, Litecoin
Bech32, Cardano, Ethereum-style hex, Tron, Litecoin Legacy, MultiversX, and
the generic 32-44 Base58 run. -/
def allPotentialMatches (cs : List Char) : List RawMatch :=
  patMatchAll [fun c => c == '1' || c == '3'] isBase58 20 40 cs 0 ++
  patMatchAll [litChar 'b', litChar 'c', litChar '1'] isBech32Data 30 70 cs 0 ++
  patMatchAll [litChar 'l', litChar 't', litChar 'c', litChar '1'] isBech32Data 30 70 cs 0 ++
  patMatchAll [litChar 'a', litChar 'd', litChar 'd', litChar 'r', litChar '1'] isLowerAlnum 50 120 cs 0 ++
  patMatchAll [litChar '0', litChar 'x'] isHexDigit 40 40 cs 0 ++
  patMatchAll [litChar 'T'] isBase58 30 40 cs 0 ++
  patMatchAll [fun c => c == 'L' || c == 'M'] isBase58 20 40 cs 0 ++
  patMatchAll [litChar 'e', litChar 'r', litChar 'd', litChar '1'] isLowerAlnum 58 58 cs 0 ++
  patMatchAll [] isBase58 32 44 cs 0

/-- Case-insensitive anchored suffix removal, one application of
`.replace(/lit$/i, '')`. -/
def stripSuffCI (a lit : List Char) : List Char :=
  if ciStartsWith (a.drop (a.length - lit.length)) lit then a.take (a.length - lit.length)
  else a

/-- Case-insensitive anchored lead removal, one application of
`.replace(/^lit/i, '')`. -/
def stripLeadCI (a lit : List Char) : List Char :=
  if ciStartsWith a lit then a.drop lit.length else a

/-- KROK 1 + KROK 2 of the cleaning, lines 655-681: case-sensitive lead
removals (`startsWith`), then the chain of anchored case-insensitive suffix
removals, then the anchored lead removals, then `trim`. -/
def cleanAffixes (raw : List Char) : List Char :=
  let a1 := if listStartsWith raw "ddress".data then raw.drop 6 else raw
  let a2 := if listStartsWith a1 "Address".data then a1.drop 7 else a1
  let a3 := if listStartsWith a2 "eported".data then a2.drop 7 else a2
  let b1 := stripSuffCI a3 "reported".data
  let b2 := stripSuffCI b1 "reporteddomain".data
  let b3 := stripSuffCI b2 "reportedaddress".data
  let b4 := stripSuffCI b3 "domain".data
  let b5 := stripSuffCI b4 "address".data
  let b6 := stripSuffCI b5 "reporte".data
  let b7 := stripSuffCI b6 "addres".data
  let c1 := stripLeadCI b7 "trc20".data
  let c2 := stripLeadCI c1 "usdt".data
  let c3 := stripLeadCI c2 "btc".data
  let c4 := stripLeadCI c3 "eth".data
  jsTrim c4

/-- Whole-string match of `lead` + `cls{lo,hi}` anchored on both sides
(`^...$`): everything after the lead is in the class with a length in
range. -/
def fullLeadClass (lead : List Char) (cls : Char → Bool) (lo hi : Nat)
    (a : List Char) : Bool :=
  listStartsWith a lead &&
  (let r := a.drop lead.length
   r.all cls && decide (lo ≤ r.length) && decide (r.length ≤ hi))

/-- The KROK 3 guard, line 684: the full-match test of
`^(0x[a-fA-F0-9]{40}|bc1[02-9ac-hj-np-z]+|[13][1-9A-HJ-NP-Za-km-z]+|T[1-9A-HJ-NP-Za-km-z]+|[LM][1-9A-HJ-NP-Za-km-z]+|addr1[a-z0-9]+)$`
(the `+` families are unbounded). -/
def krok3FullOk (a : List Char) : Bool :=
  fullLeadClass "0x".data isHexDigit 40 40 a ||
  fullLeadClass "bc1".data isBech32Data 1 a.length a ||
  (match a with
   | c :: r => (c == '1' || c == '3') && r.all isBase58 && decide (1 ≤ r.length)
   | [] => false) ||
  fullLeadClass "T".data isBase58 1 a.length a ||
  (match a with
   | c :: r => (c == 'L' || c == 'M') && r.all isBase58 && decide (1 ≤ r.length)
   | [] => false) ||
  fullLeadClass "addr1".data isLowerAlnum 1 a.length a

/-- One attempt of the KROK 3 extraction alternation at the head of `a`
(line 685), alternatives tried in source order. -/
def krok3AltHere (a : List Char) : Option (List Char) :=
  match tryPatMatch [litChar '0', litChar 'x'] isHexDigit 40 40 a with
  | some n => some (a.take n)
  | none =>
  match tryPatMatch [litChar 'b', litChar 'c', litChar '1'] isBech32Data 39 62 a with
  | some n => some (a.take n)
  | none =>
  match tryPatMatch [fun c => c == '1' || c == '3'] isBase58 25 34 a with
  | some n => some (a.take n)
  | none =>
  match tryPatMatch [litChar 'T'] isBase58 33 33 a with
  | some n => some (a.take n)
  | none =>
  match tryPatMatch [fun c => c == 'L' || c == 'M'] isBase58 26 34 a with
  | some n => some (a.take n)
  | none =>
  match tryPatMatch [litChar 'a', litChar 'd', litChar 'd', litChar 'r', litChar '1'] isLowerAlnum 53 103 a with
  | some n => some (a.take n)
  | none => none

/-- First match of the KROK 3 alternation anywhere in `a` (`.match` without
`g`): leftmost position wins, alternatives in order at each position. -/
def krok3AltFirst : List Char → Option (List Char)
  | [] => none
  | c :: rest =>
    match krok3AltHere (c :: rest) with
    | some m => some m
    | none => krok3AltFirst rest

/-- KROK 3, lines 683-689: if the cleaned string is not already a full
address shape, extract the first embedded address-shaped substring (if any). -/
def krok3 (a : List Char) : List Char :=
  if krok3FullOk a then a
  else
    match krok3AltFirst a with
    | some m => m
    | none => a

/-- The full cleaning of one raw match (KROK 1-3). -/
def cleanAddress (raw : List Char) : List Char := krok3 (cleanAffixes raw)

/-- The validation chain of lines 693-748.  Each branch is a fully anchored
regex test.  The two final Solana branches of lines 732-748 have identical
conditions and the first of them sets nothing, so a generic Base58 string
never validates; they are therefore omitted from the disjunction. -/
def isValidAddressShape (a : List Char) : Bool :=
  fullLeadClass "bc1".data isBech32Data 38 61 a ||
  fullLeadClass "ltc1".data isBech32Data 38 61 a ||
  fullLeadClass "addr1".data isLowerAlnum 50 120 a ||
  (match a with
   | c :: r => (c == '1' || c == '3') && r.all isBase58 &&
       decide (24 ≤ r.length) && decide (r.length ≤ 33)
   | [] => false) ||
  fullLeadClass "0x".data isHexDigit 40 40 a ||
  fullLeadClass "T".data isBase58 33 33 a ||
  (match a with
   | c :: r => (c == 'L' || c == 'M') && r.all isBase58 &&
       decide (25 ≤ r.length) && decide (r.length ≤ 33)
   | [] => false) ||
  (listStartsWith a "0.0.".data && (a.drop 4).all isDigitChar &&
   decide (5 ≤ a.length))

/-- The duplicate-fragment loop of lines 757-775 over the accepted addresses:
the first address related to the candidate by strict containment either
absorbs it (candidate is a fragment: list unchanged) or is replaced by it
(candidate strictly contains it).  Returns `none` when no address is
related (`isDuplicateFragment` stays false). -/
def fragLoop (cleaned : String) : List String → Option (List String)
  | [] => none
  | a :: rest =>
    if jsIncludes a.data cleaned.data && a != cleaned then some (a :: rest)
    else if jsIncludes cleaned.data a.data && a != cleaned then some (cleaned :: rest)
    else (fragLoop cleaned rest).map (fun r => a :: r)

/-- The interleaved accumulator of the extraction loop: accepted spans
(pushed only when an address is appended, line 780) and accepted
addresses. -/
structure ExtractState where
  processed : List (Nat × Nat)
  addresses : List String
deriving Repr

/-- The overlap test of lines 639-645 against the accepted spans. -/
def isOverlapping (processed : List (Nat × Nat)) (s e : Nat) : Bool :=
  processed.any (fun p => (decide (p.1 ≤ s) && decide (s < p.2)) ||
    (decide (p.1 < e) && decide (e ≤ p.2)))

/-- Processing of one raw match, lines 632-787: overlap rejection, cleaning,
validation (plus the length-25 floor and exact-duplicate guard of lines
752-754), then fragment resolution or acceptance. -/
def processMatch (st : ExtractState) (m : RawMatch) : ExtractState :=
  if isOverlapping st.processed m.start (m.start + m.str.length) then st
  else
    if isValidAddressShape (cleanAddress m.str) && decide (25 ≤ (cleanAddress m.str).length) &&
        !st.addresses.contains (String.mk (cleanAddress m.str)) then
      match fragLoop (String.mk (cleanAddress m.str)) st.addresses with
      | some newAddrs => { st with addresses := newAddrs }
      | none => { processed := st.processed ++ [(m.start, m.start + m.str.length)],
                  addresses := st.addresses ++ [String.mk (cleanAddress m.str)] }
    else st

/-- The complete multi-address extraction of lines 609-789: scan all nine
patterns, then fold every raw match through `processMatch`. -/
def extractAddresses (textContent : String) : List String :=
  ((allPotentialMatches textContent.data).foldl processMatch
    { processed := [], addresses := [] }).addresses

/-! ### Helper lemmas about the JS set model -/

theorem listContains_iff {l : List String} {x : String} : l.contains x = true ↔ x ∈ l := by
  simp [List.contains, List.elem_iff]

theorem mem_jsSetAdd_self (s : List String) (x : String) : x ∈ jsSetAdd s x := by
  unfold jsSetAdd
  split
  · exact listContains_iff.mp (by assumption)
  · exact List.mem_append_right _ (List.mem_singleton.mpr rfl)

theorem mem_jsSetAdd_of_mem {s : List String} {y : String} (x : String) (h : y ∈ s) :
    y ∈ jsSetAdd s x := by
  unfold jsSetAdd
  split
  · exact h
  · exact List.mem_append_left _ h

theorem mem_jsSetAdd_elim {s : List String} {x y : String} (h : y ∈ jsSetAdd s x) :
    y ∈ s ∨ y = x := by
  unfold jsSetAdd at h
  split at h
  · exact Or.inl h
  · rcases List.mem_append.mp h with h2 | h2
    · exact Or.inl h2
    · exact Or.inr (List.mem_singleton.mp h2)

theorem jsSetAdd_length (s : List String) (x : String) :
    (jsSetAdd s x).length ≤ s.length + 1 := by
  unfold jsSetAdd
  split
  · omega
  · simp

theorem mem_foldl_jsSetAdd_of_mem {y : String} :
    ∀ (l : List String) (init : List String), y ∈ init → y ∈ l.foldl jsSetAdd init := by
  intro l
  induction l with
  | nil => intro init h; exact h
  | cons a l ih =>
    intro init h
    exact ih (jsSetAdd init a) (mem_jsSetAdd_of_mem a h)

theorem mem_foldl_jsSetAdd_of_mem_list {y : String} :
    ∀ (l : List String) (init : List String), y ∈ l → y ∈ l.foldl jsSetAdd init := by
  intro l
  induction l with
  | nil => intro init h; exact absurd h (List.not_mem_nil y)
  | cons a l ih =>
    intro init h
    rcases List.mem_cons.mp h with h1 | h1
    · subst h1
      exact mem_foldl_jsSetAdd_of_mem l _ (mem_jsSetAdd_self init y)
    · exact ih _ h1

theorem mem_foldl_jsSetAdd_elim {y : String} :
    ∀ (l : List String) (init : List String), y ∈ l.foldl jsSetAdd init →
      y ∈ init ∨ y ∈ l := by
  intro l
  induction l with
  | nil => intro init h; exact Or.inl h
  | cons a l ih =>
    intro init h
    rcases ih (jsSetAdd init a) h with h1 | h1
    · rcases mem_jsSetAdd_elim h1 with h2 | h2
      · exact Or.inl h2
      · exact Or.inr (by simp [h2])
    · exact Or.inr (List.mem_cons_of_mem a h1)

theorem foldl_jsSetAdd_of_nodup :
    ∀ (l : List String) (init : List String), l.Nodup → (∀ x ∈ l, x ∉ init) →
      l.foldl jsSetAdd init = init ++ l := by
  intro l
  induction l with
  | nil => intro init _ _; simp
  | cons a l ih =>
    intro init hnd hdisj
    have ha : init.contains a = false := by
      by_contra hc
      have : init.contains a = true := by
        cases h2 : init.contains a
        · exact absurd h2 hc
        · rfl
      exact hdisj a (List.mem_cons_self a l) (listContains_iff.mp this)
    have hstep : jsSetAdd init a = init ++ [a] := by
      unfold jsSetAdd
      rw [ha]
      simp
    rw [List.foldl_cons, hstep, ih (init ++ [a]) (List.Nodup.of_cons hnd)]
    · simp
    · intro x hx hmem
      rcases List.mem_append.mp hmem with h1 | h1
      · exact hdisj x (List.mem_cons_of_mem a hx) h1
      · have : x = a := List.mem_singleton.mp h1
        subst this
        exact (List.nodup_cons.mp hnd).1 hx

/-! ### Claim theorems -/

/-- C1: the freshness check `isVeryFresh` on the four boundary phrases.  The
claim's first three values hold, but on `"10 minutes ago"` the code returns
`true`, not `false`: the check is a substring test and `"10 minutes ago"`
contains `"0 minutes ago"`.  The spec's intended boundary (fresh only up to a
few minutes) is contradicted by the code on this input. -/
theorem C1_freshness_boundary_eval :
    isVeryFresh "49 seconds ago" = true ∧
    isVeryFresh "1 minute ago" = true ∧
    isVeryFresh "50 seconds ago" = false ∧
    isVeryFresh "10 minutes ago" = true := by decide

/-- C2 counterexample: two cleaned items with identical cleaned body and
author but different categories receive the same fingerprint, because
`createReportSnapshot` hashes `cleanContent + author` only (route.ts line
1456) — the category is not part of the hash input, contrary to the claim. -/
theorem C2_category_collision_counterexample :
    snapshotContentHash
        { cleanContent := "foo", author := "alice", category := "Phishing Scam" } =
      snapshotContentHash
        { cleanContent := "foo", author := "alice", category := "Romance Scam" } ∧
    ("Phishing Scam" : String) ≠ "Romance Scam" := by
  exact ⟨rfl, by decide⟩

/-- C2 amended: the fingerprint is a hash of `cleanedBody + author` in that
order, with the category omitted; consequently any two items with identical
cleaned body and author — whatever their categories and positions — receive
the same fingerprint. -/
theorem C2_fingerprint_ignores_category (d1 d2 : CleanedData)
    (hc : d1.cleanContent = d2.cleanContent) (ha : d1.author = d2.author) :
    snapshotContentHash d1 = snapshotContentHash d2 := by
  unfold snapshotContentHash
  rw [hc, ha]

/-- Witness for `C2_fingerprint_ignores_category` at concrete inputs. -/
theorem C2_fingerprint_ignores_category_witness :
    snapshotContentHash { cleanContent := "body", author := "bob", category := "Ransomware" } =
      snapshotContentHash { cleanContent := "body", author := "bob", category := "Other" } :=
  C2_fingerprint_ignores_category _ _ rfl rfl

/-- C7: inserting 2001 pairwise-distinct fingerprints (`h0` then the 2000
fingerprints of `rest`) into an empty store and running the post-cycle
eviction of route.ts lines 2022-2027 retains exactly the last 2000 in
insertion order: the first-inserted fingerprint is gone, the last-inserted
one is present. -/
theorem C7_eviction_boundary (h0 : String) (rest : List String)
    (hnd : (h0 :: rest).Nodup) (hlen : rest.length = 2000) :
    evictSentHashes ((h0 :: rest).foldl jsSetAdd []) = rest ∧
    (evictSentHashes ((h0 :: rest).foldl jsSetAdd [])).length = 2000 ∧
    h0 ∉ evictSentHashes ((h0 :: rest).foldl jsSetAdd []) ∧
    ∀ x, (h0 :: rest).getLast? = some x →
      x ∈ evictSentHashes ((h0 :: rest).foldl jsSetAdd []) := by
  have hfold : (h0 :: rest).foldl jsSetAdd [] = h0 :: rest := by
    have h2 := foldl_jsSetAdd_of_nodup (h0 :: rest) [] hnd
      (by intro x _ hx; exact absurd hx (List.not_mem_nil x))
    simpa using h2
  have hev : evictSentHashes ((h0 :: rest).foldl jsSetAdd []) = rest := by
    rw [hfold]
    unfold evictSentHashes
    rw [if_pos (by simp [hlen])]
    simp [hlen]
  refine ⟨hev, by rw [hev]; exact hlen, ?_, ?_⟩
  · rw [hev]
    exact (List.nodup_cons.mp hnd).1
  · intro x hx
    rw [hev]
    cases rest with
    | nil => simp at hlen
    | cons r rest2 =>
      rw [List.getLast?_cons_cons] at hx
      have : x ∈ r :: rest2 := by
        have h3 := List.mem_of_mem_getLast? (l := r :: rest2) (a := x)
        exact h3 hx
      exact this

/-! ### Injectivity of the decimal rendering (for C10) -/

theorem natToDecimalAux_small {n : Nat} (hn : n < 10) :
    ∀ f, natToDecimalAux f n = [Nat.digitChar n] := by
  intro f
  cases f with
  | zero => rfl
  | succ k =>
    unfold natToDecimalAux
    rw [if_pos hn]

theorem natToDecimalAux_congr :
    ∀ n f1 f2, n ≤ f1 → n ≤ f2 → natToDecimalAux f1 n = natToDecimalAux f2 n := by
  intro n
  induction n using Nat.strong_induction_on with
  | _ n ih =>
    intro f1 f2 h1 h2
    by_cases hn : n < 10
    · rw [natToDecimalAux_small hn, natToDecimalAux_small hn]
    · obtain ⟨k1, hk1⟩ : ∃ k, f1 = k + 1 := ⟨f1 - 1, by omega⟩
      obtain ⟨k2, hk2⟩ : ∃ k, f2 = k + 1 := ⟨f2 - 1, by omega⟩
      subst hk1; subst hk2
      unfold natToDecimalAux
      rw [if_neg hn, if_neg hn]
      have hlt : n / 10 < n := Nat.div_lt_self (by omega) (by omega)
      have hb : n / 10 ≤ n - 9 := by omega
      rw [ih (n / 10) hlt k1 k2 (by omega) (by omega)]

theorem natToDecimalAux_length_pos (f n : Nat) : 1 ≤ (natToDecimalAux f n).length := by
  cases f with
  | zero => simp [natToDecimalAux]
  | succ k =>
    unfold natToDecimalAux
    split
    · simp
    · simp

theorem natToDecimal_small {n : Nat} (hn : n < 10) :
    natToDecimal n = [Nat.digitChar n] := by
  unfold natToDecimal
  exact natToDecimalAux_small hn n

theorem natToDecimal_big {n : Nat} (hn : ¬ n < 10) :
    natToDecimal n = natToDecimal (n / 10) ++ [Nat.digitChar (n % 10)] := by
  unfold natToDecimal
  obtain ⟨k, hk⟩ : ∃ k, n = k + 1 := ⟨n - 1, by omega⟩
  rw [hk]
  conv_lhs => unfold natToDecimalAux
  rw [if_neg (by omega : ¬ k + 1 < 10)]
  have hle : (k + 1) / 10 ≤ k := by omega
  rw [natToDecimalAux_congr ((k + 1) / 10) k ((k + 1) / 10) hle (Nat.le_refl _)]

theorem digitChar_inj_lt {a b : Nat} (ha : a < 10) (hb : b < 10)
    (h : Nat.digitChar a = Nat.digitChar b) : a = b := by
  have key : ∀ x y : Fin 10, Nat.digitChar x.val = Nat.digitChar y.val → x.val = y.val := by
    decide
  exact key ⟨a, ha⟩ ⟨b, hb⟩ h

theorem natToDecimal_inj : ∀ n m, natToDecimal n = natToDecimal m → n = m := by
  intro n
  induction n using Nat.strong_induction_on with
  | _ n ih =>
    intro m heq
    by_cases hn : n < 10
    · by_cases hm : m < 10
      · rw [natToDecimal_small hn, natToDecimal_small hm] at heq
        exact digitChar_inj_lt hn hm (List.singleton_inj.mp heq)
      · exfalso
        rw [natToDecimal_small hn, natToDecimal_big hm] at heq
        have h3 := congrArg List.length heq
        have h4 := natToDecimalAux_length_pos (m / 10) (m / 10)
        simp only [List.length_singleton, List.length_append] at h3
        unfold natToDecimal at h3
        omega
    · by_cases hm : m < 10
      · exfalso
        rw [natToDecimal_big hn, natToDecimal_small hm] at heq
        have h3 := congrArg List.length heq
        have h4 := natToDecimalAux_length_pos (n / 10) (n / 10)
        simp only [List.length_singleton, List.length_append] at h3
        unfold natToDecimal at h3
        omega
      · rw [natToDecimal_big hn, natToDecimal_big hm] at heq
        have hrev := congrArg List.reverse heq
        simp only [List.reverse_append, List.reverse_singleton, List.singleton_append,
          List.cons.injEq] at hrev
        have hmod : n % 10 = m % 10 :=
          digitChar_inj_lt (Nat.mod_lt n (by omega)) (Nat.mod_lt m (by omega)) hrev.1
        have hdiv : n / 10 = m / 10 := by
          have := List.reverse_inj.mp hrev.2
          exact ih (n / 10) (Nat.div_lt_self (by omega) (by omega)) (m / 10) this
        omega

/-- C10: `createPageSignature` is not a function of the page content alone —
it mixes `Date.now()` into the pre-hash signature string (monitor.ts line
78), so identical content at different clock values yields different
signature strings; consequently, whenever the two final hashes differ (i.e.
short of a collision of `simpleHash`), the post-baseline branch of
`checkForChanges` classifies an unchanged page as changed. -/
theorem C10_signature_not_deterministic (content : String) (t1 t2 : Nat)
    (hne : t1 ≠ t2) :
    pageSignatureString content t1 ≠ pageSignatureString content t2 ∧
    (createPageSignature content t2 ≠ createPageSignature content t1 →
      checkTreatsAsChanged (createPageSignature content t1) content t2 = true) := by
  constructor
  · intro heq
    unfold pageSignatureString at heq
    have hdata := congrArg String.data heq
    simp only [String.data_append] at hdata
    have h2 := List.append_cancel_left hdata
    exact hne (natToDecimal_inj t1 t2 h2)
  · intro hdiff
    unfold checkTreatsAsChanged
    simp [bne_iff_ne]
    exact hdiff

set_option maxRecDepth 200000 in
/-- Witness for `C10_signature_not_deterministic` at the empty page and clock
values 0 and 1. -/
theorem C10_signature_not_deterministic_witness :
    pageSignatureString "" 0 ≠ pageSignatureString "" 1 ∧
    checkTreatsAsChanged (createPageSignature "" 0) "" 1 = true :=
  ⟨(C10_signature_not_deterministic "" 0 1 (by decide)).1,
   (C10_signature_not_deterministic "" 0 1 (by decide)).2 (by decide)⟩

/-! ### Lemmas about the detection and notification phases -/

theorem detect_news_monotone (last : List String) {x : CycleItem} :
    ∀ (items : List CycleItem) (acc : List CycleItem × List String), x ∈ acc.1 →
      x ∈ (items.foldl (detectStep last) acc).1 := by
  intro items
  induction items with
  | nil => intro acc h; exact h
  | cons a rest ih =>
    intro acc h
    refine ih _ ?_
    unfold detectStep
    split
    · split
      · exact List.mem_append_left _ h
      · exact h
    · exact h

theorem detect_sent_monotone (last : List String) {y : String} :
    ∀ (items : List CycleItem) (acc : List CycleItem × List String), y ∈ acc.2 →
      y ∈ (items.foldl (detectStep last) acc).2 := by
  intro items
  induction items with
  | nil => intro acc h; exact h
  | cons a rest ih =>
    intro acc h
    refine ih _ ?_
    unfold detectStep
    split
    · split
      · exact h
      · exact mem_jsSetAdd_of_mem _ h
    · exact h

theorem detect_news_source (last : List String) {x : CycleItem} :
    ∀ (items : List CycleItem) (acc : List CycleItem × List String),
      x ∈ (items.foldl (detectStep last) acc).1 →
      x ∈ acc.1 ∨ (x ∈ items ∧ isVeryFresh x.timeAgo = true ∧
        last.contains x.contentHash = false) := by
  intro items
  induction items with
  | nil => intro acc h; exact Or.inl h
  | cons a rest ih =>
    intro acc h
    rcases ih _ h with h1 | h1
    · unfold detectStep at h1
      split at h1
      · rename_i hcond
        split at h1
        · rcases List.mem_append.mp h1 with h2 | h2
          · exact Or.inl h2
          · have hxa : x = a := List.mem_singleton.mp h2
            subst hxa
            refine Or.inr ⟨List.mem_cons_self _ _, by assumption, ?_⟩
            have := (Bool.and_eq_true _ _).mp hcond
            cases h3 : last.contains x.contentHash
            · rfl
            · exfalso
              have := this.1
              rw [h3] at this
              simp at this
        · exact Or.inl h1
      · exact Or.inl h1
    · exact Or.inr ⟨List.mem_cons_of_mem a h1.1, h1.2⟩

theorem detect_sent_source (last : List String) {y : String} :
    ∀ (items : List CycleItem) (acc : List CycleItem × List String),
      y ∈ (items.foldl (detectStep last) acc).2 →
      y ∈ acc.2 ∨ ∃ it ∈ items, it.contentHash = y ∧ isVeryFresh it.timeAgo = false := by
  intro items
  induction items with
  | nil => intro acc h; exact Or.inl h
  | cons a rest ih =>
    intro acc h
    rcases ih _ h with h1 | h1
    · unfold detectStep at h1
      split at h1
      · split at h1
        · exact Or.inl h1
        · rcases mem_jsSetAdd_elim h1 with h2 | h2
          · exact Or.inl h2
          · refine Or.inr ⟨a, List.mem_cons_self _ _, h2.symm, ?_⟩
            rename_i hnf
            cases hb : isVeryFresh a.timeAgo
            · rfl
            · exact absurd hb hnf
      · exact Or.inl h1
    · obtain ⟨it, hit, heq, hfr⟩ := h1
      exact Or.inr ⟨it, List.mem_cons_of_mem a hit, heq, hfr⟩

theorem detect_notfresh_added (last : List String) {item : CycleItem} :
    ∀ (items : List CycleItem) (acc : List CycleItem × List String), item ∈ items →
      last.contains item.contentHash = false → isVeryFresh item.timeAgo = false →
      item.contentHash ∈ (items.foldl (detectStep last) acc).2 := by
  intro items
  induction items with
  | nil => intro acc h; exact absurd h (List.not_mem_nil item)
  | cons a rest ih =>
    intro acc hmem hnl hfr
    rcases List.mem_cons.mp hmem with h1 | h1
    · subst h1
      by_cases hin : item.contentHash ∈ acc.2
      · exact detect_sent_monotone last rest _ (by
          unfold detectStep
          split
          · split
            · exact hin
            · exact mem_jsSetAdd_of_mem _ hin
          · exact hin)
      · have hcont : acc.2.contains item.contentHash = false := by
          cases h2 : acc.2.contains item.contentHash
          · rfl
          · exact absurd (listContains_iff.mp h2) hin
        refine detect_sent_monotone last rest _ ?_
        unfold detectStep
        rw [hnl, hcont]
        simp only [Bool.not_false, Bool.and_self, if_true, hfr]
        simp
        exact mem_jsSetAdd_self _ _
    · exact ih _ h1 hnl hfr

theorem detect_fresh_in_news (last : List String) {item : CycleItem} :
    ∀ (items : List CycleItem) (acc : List CycleItem × List String),
      (items.map CycleItem.contentHash).Nodup → item ∈ items →
      last.contains item.contentHash = false →
      item.contentHash ∉ acc.2 → isVeryFresh item.timeAgo = true →
      item ∈ (items.foldl (detectStep last) acc).1 := by
  intro items
  induction items with
  | nil => intro acc _ h; exact absurd h (List.not_mem_nil item)
  | cons a rest ih =>
    intro acc hnd hmem hnl hns hfr
    rcases List.mem_cons.mp hmem with h1 | h1
    · subst h1
      have hcont : acc.2.contains item.contentHash = false := by
        cases h2 : acc.2.contains item.contentHash
        · rfl
        · exact absurd (listContains_iff.mp h2) hns
      refine detect_news_monotone last rest _ ?_
      unfold detectStep
      rw [hnl, hcont]
      simp only [Bool.not_false, Bool.and_self, if_true, hfr]
      simp
    · have hne : a.contentHash ≠ item.contentHash := by
        intro heq
        have : a.contentHash ∈ rest.map CycleItem.contentHash := by
          rw [heq]
          exact List.mem_map_of_mem _ h1
        rw [List.map_cons] at hnd
        exact (List.nodup_cons.mp hnd).1 this
      refine ih _ ?_ h1 hnl ?_ hfr
      · rw [List.map_cons] at hnd
        exact (List.nodup_cons.mp hnd).2
      · intro hin
        unfold detectStep at hin
        split at hin
        · split at hin
          · exact hns hin
          · rcases mem_jsSetAdd_elim hin with h2 | h2
            · exact hns h2
            · exact hne h2.symm
        · exact hns hin

theorem detect_size (last : List String) :
    ∀ (items : List CycleItem) (acc : List CycleItem × List String),
      (items.foldl (detectStep last) acc).1.length +
        (items.foldl (detectStep last) acc).2.length ≤
      acc.1.length + acc.2.length + items.length := by
  intro items
  induction items with
  | nil => intro acc; simp
  | cons a rest ih =>
    intro acc
    have h1 := ih (detectStep last acc a)
    have h2 : (detectStep last acc a).1.length + (detectStep last acc a).2.length ≤
        acc.1.length + acc.2.length + 1 := by
      unfold detectStep
      split
      · split
        · simp only [List.length_append, List.length_singleton]
          omega
        · have h3 := jsSetAdd_length acc.2 a.contentHash
          simp only
          omega
      · omega
    rw [List.foldl_cons]
    simp only [List.length_cons]
    omega

theorem notify_sent_monotone (sendOk : String → Bool) {y : String} :
    ∀ (items : List CycleItem) (sent notif : List String), y ∈ sent →
      y ∈ (notifyPhase sendOk items sent notif).1 := by
  intro items
  induction items with
  | nil => intro sent notif h; exact h
  | cons a rest ih =>
    intro sent notif h
    unfold notifyPhase
    split
    · exact ih _ _ (mem_jsSetAdd_of_mem _ h)
    · split
      · exact ih _ _ (mem_jsSetAdd_of_mem _ h)
      · exact h

theorem notify_sent_source (sendOk : String → Bool) {y : String} :
    ∀ (items : List CycleItem) (sent notif : List String),
      y ∈ (notifyPhase sendOk items sent notif).1 →
      y ∈ sent ∨ ∃ it ∈ items, it.contentHash = y ∧
        (isAmountUSDSignificant it.finalAmountLost = false ∨ sendOk y = true) := by
  intro items
  induction items with
  | nil => intro sent notif h; exact Or.inl h
  | cons a rest ih =>
    intro sent notif h
    unfold notifyPhase at h
    split at h
    · rcases ih _ _ h with h1 | h1
      · rcases mem_jsSetAdd_elim h1 with h2 | h2
        · exact Or.inl h2
        · subst h2
          refine Or.inr ⟨a, List.mem_cons_self _ _, rfl, Or.inl ?_⟩
          rename_i hns
          cases hb : isAmountUSDSignificant a.finalAmountLost
          · rfl
          · exfalso
            rw [hb] at hns
            simp at hns
      · obtain ⟨it, hit, hh, hc⟩ := h1
        exact Or.inr ⟨it, List.mem_cons_of_mem a hit, hh, hc⟩
    · split at h
      · rcases ih _ _ h with h1 | h1
        · rcases mem_jsSetAdd_elim h1 with h2 | h2
          · exact Or.inl h2
          · subst h2
            exact Or.inr ⟨a, List.mem_cons_self _ _, rfl, Or.inr (by assumption)⟩
        · obtain ⟨it, hit, hh, hc⟩ := h1
          exact Or.inr ⟨it, List.mem_cons_of_mem a hit, hh, hc⟩
      · exact Or.inl h

theorem notify_notif_source (sendOk : String → Bool) {y : String} :
    ∀ (items : List CycleItem) (sent notif : List String),
      y ∈ (notifyPhase sendOk items sent notif).2.1 →
      y ∈ notif ∨ ∃ it ∈ items, it.contentHash = y ∧
        isAmountUSDSignificant it.finalAmountLost = true ∧ sendOk y = true := by
  intro items
  induction items with
  | nil => intro sent notif h; exact Or.inl h
  | cons a rest ih =>
    intro sent notif h
    unfold notifyPhase at h
    split at h
    · rcases ih _ _ h with h1 | h1
      · exact Or.inl h1
      · obtain ⟨it, hit, hh, hc⟩ := h1
        exact Or.inr ⟨it, List.mem_cons_of_mem a hit, hh, hc⟩
    · split at h
      · rcases ih _ _ h with h1 | h1
        · rcases List.mem_append.mp h1 with h2 | h2
          · exact Or.inl h2
          · have h3 : y = a.contentHash := List.mem_singleton.mp h2
            subst h3
            refine Or.inr ⟨a, List.mem_cons_self _ _, rfl, ?_, by assumption⟩
            rename_i hsig _
            cases hb : isAmountUSDSignificant a.finalAmountLost
            · exfalso
              rw [hb] at hsig
              simp at hsig
            · rfl
        · obtain ⟨it, hit, hh, hc⟩ := h1
          exact Or.inr ⟨it, List.mem_cons_of_mem a hit, hh, hc⟩
      · exact Or.inl h

theorem notify_completed_all (sendOk : String → Bool) :
    ∀ (items : List CycleItem) (sent notif : List String),
      (notifyPhase sendOk items sent notif).2.2 = true →
      ∀ it ∈ items, isAmountUSDSignificant it.finalAmountLost = false ∨
        sendOk it.contentHash = true := by
  intro items
  induction items with
  | nil => intro sent notif _ it hit; exact absurd hit (List.not_mem_nil it)
  | cons a rest ih =>
    intro sent notif h it hit
    unfold notifyPhase at h
    split at h
    · rcases List.mem_cons.mp hit with h1 | h1
      · subst h1
        rename_i hns
        cases hb : isAmountUSDSignificant it.finalAmountLost
        · exact Or.inl rfl
        · exfalso
          rw [hb] at hns
          simp at hns
      · exact ih _ _ h it h1
    · split at h
      · rcases List.mem_cons.mp hit with h1 | h1
        · subst h1
          exact Or.inr (by assumption)
        · exact ih _ _ h it h1
      · simp at h

theorem notify_size (sendOk : String → Bool) :
    ∀ (items : List CycleItem) (sent notif : List String),
      (notifyPhase sendOk items sent notif).1.length ≤ sent.length + items.length := by
  intro items
  induction items with
  | nil => intro sent notif; simp [notifyPhase]
  | cons a rest ih =>
    intro sent notif
    unfold notifyPhase
    split
    · have h1 := ih (jsSetAdd sent a.contentHash) notif
      have h2 := jsSetAdd_length sent a.contentHash
      simp only [List.length_cons]
      omega
    · split
      · have h1 := ih (jsSetAdd sent a.contentHash) (notif ++ [a.contentHash])
        have h2 := jsSetAdd_length sent a.contentHash
        simp only [List.length_cons]
        omega
      · simp only [List.length_cons]
        omega

theorem mem_of_mem_evict {l : List String} {y : String} (h : y ∈ evictSentHashes l) :
    y ∈ l := by
  unfold evictSentHashes at h
  split at h
  · exact List.mem_of_mem_drop h
  · exact h

theorem evict_eq_of_le {l : List String} (h : l.length ≤ 2000) :
    evictSentHashes l = l := by
  unfold evictSentHashes
  rw [if_neg (by omega)]

theorem cycle_steady_eq (st : MonitorState) (items : List CycleItem)
    (sendOk : String → Bool) (hcc : st.checkCount ≠ 0) :
    checkForNewReports st items sendOk =
      ({ checkCount := st.checkCount + 1,
         lastReportHashes := jsSetOfList (items.map CycleItem.contentHash),
         sentReportHashes :=
           if (notifyPhase sendOk
                 (detectPhase items st.lastReportHashes st.sentReportHashes).1
                 (detectPhase items st.lastReportHashes st.sentReportHashes).2 []).2.2 then
             evictSentHashes (notifyPhase sendOk
               (detectPhase items st.lastReportHashes st.sentReportHashes).1
               (detectPhase items st.lastReportHashes st.sentReportHashes).2 []).1
           else (notifyPhase sendOk
             (detectPhase items st.lastReportHashes st.sentReportHashes).1
             (detectPhase items st.lastReportHashes st.sentReportHashes).2 []).1 },
       (notifyPhase sendOk
         (detectPhase items st.lastReportHashes st.sentReportHashes).1
         (detectPhase items st.lastReportHashes st.sentReportHashes).2 []).2.1) := by
  unfold checkForNewReports
  rw [if_neg (by omega)]

theorem cycle_baseline_eq (st : MonitorState) (items : List CycleItem)
    (sendOk : String → Bool) (hcc : st.checkCount = 0) :
    checkForNewReports st items sendOk =
      ({ checkCount := 1,
         lastReportHashes := jsSetOfList (items.map CycleItem.contentHash),
         sentReportHashes :=
           (items.map CycleItem.contentHash).foldl jsSetAdd st.sentReportHashes }, []) := by
  unfold checkForNewReports
  rw [hcc]
  rfl

/-- Any hash already in the previous-cycle snapshot is never notified by a
cycle: the detection loop requires absence from `lastReportHashes`. -/
theorem cycle_notified_not_in_prev (st : MonitorState) (items : List CycleItem)
    (sendOk : String → Bool) {h : String} (hmem : h ∈ st.lastReportHashes) :
    h ∉ (checkForNewReports st items sendOk).2 := by
  by_cases hcc : st.checkCount = 0
  · rw [cycle_baseline_eq st items sendOk hcc]
    exact List.not_mem_nil h
  · rw [cycle_steady_eq st items sendOk hcc]
    intro hin
    simp only at hin
    rcases notify_notif_source sendOk _ _ _ hin with h1 | h1
    · exact List.not_mem_nil h h1
    · obtain ⟨it, hit, hh, _, _⟩ := h1
      rcases detect_news_source st.lastReportHashes items _ hit with h2 | h2
      · exact List.not_mem_nil it h2
      · have h3 : st.lastReportHashes.contains h = false := by rw [← hh]; exact h2.2.2
        rw [listContains_iff.symm] at hmem
        rw [hmem] at h3
        exact Bool.true_eq_false.mp h3

/-- C5: on the first-ever poll cycle (the `checkCount === 1` baseline branch,
route.ts lines 1820-1855), no report notification is emitted and every
current item's fingerprint is in the dedup store when the cycle completes. -/
theorem C5_baseline_suppression (st : MonitorState) (items : List CycleItem)
    (sendOk : String → Bool) (hcc : st.checkCount = 0) :
    (checkForNewReports st items sendOk).2 = [] ∧
    ∀ item ∈ items,
      item.contentHash ∈ (checkForNewReports st items sendOk).1.sentReportHashes := by
  rw [cycle_baseline_eq st items sendOk hcc]
  refine ⟨rfl, ?_⟩
  intro item hm
  exact mem_foldl_jsSetAdd_of_mem_list _ _ (List.mem_map_of_mem _ hm)

/-- Witness for `C5_baseline_suppression`: a fresh monitor and one item. -/
theorem C5_baseline_suppression_witness :
    (checkForNewReports { checkCount := 0, lastReportHashes := [], sentReportHashes := [] }
      [{ contentHash := "aa11", timeAgo := "2 minutes ago", finalAmountLost := "90 USD" }]
      (fun _ => true)).2 = [] ∧
    ("aa11" : String) ∈ (checkForNewReports
      { checkCount := 0, lastReportHashes := [], sentReportHashes := [] }
      [{ contentHash := "aa11", timeAgo := "2 minutes ago", finalAmountLost := "90 USD" }]
      (fun _ => true)).1.sentReportHashes := by
  have h := C5_baseline_suppression
    { checkCount := 0, lastReportHashes := [], sentReportHashes := [] }
    [{ contentHash := "aa11", timeAgo := "2 minutes ago", finalAmountLost := "90 USD" }]
    (fun _ => true) rfl
  exact ⟨h.1, h.2 _ (List.mem_singleton.mpr rfl)⟩

/-- C6: on a steady cycle, an item whose fingerprint is new (absent from the
previous snapshot and the dedup store) but not fresh is added to the dedup
store and its hash is not notified (route.ts lines 1879-1888).  The size
bound keeps the post-cycle eviction inactive, and the hash-distinctness
hypothesis reflects distinct page items. -/
theorem C6_stale_new_item_suppressed (st : MonitorState) (items : List CycleItem)
    (sendOk : String → Bool) (item : CycleItem)
    (hcc : st.checkCount ≠ 0)
    (hnodup : (items.map CycleItem.contentHash).Nodup)
    (hmem : item ∈ items)
    (hnlast : item.contentHash ∉ st.lastReportHashes)
    (hnsent : item.contentHash ∉ st.sentReportHashes)
    (hfresh : isVeryFresh item.timeAgo = false)
    (hsize : st.sentReportHashes.length + items.length ≤ 2000) :
    item.contentHash ∈ (checkForNewReports st items sendOk).1.sentReportHashes ∧
    item.contentHash ∉ (checkForNewReports st items sendOk).2 := by
  rw [cycle_steady_eq st items sendOk hcc]
  have hnlastc : st.lastReportHashes.contains item.contentHash = false := by
    cases h2 : st.lastReportHashes.contains item.contentHash
    · rfl
    · exact absurd (listContains_iff.mp h2) hnlast
  have hdet : item.contentHash ∈ (detectPhase items st.lastReportHashes st.sentReportHashes).2 :=
    detect_notfresh_added st.lastReportHashes items _ hmem hnlastc hfresh
  have hnot : item.contentHash ∈
      (notifyPhase sendOk (detectPhase items st.lastReportHashes st.sentReportHashes).1
        (detectPhase items st.lastReportHashes st.sentReportHashes).2 []).1 :=
    notify_sent_monotone sendOk _ _ _ hdet
  have hbound : (notifyPhase sendOk
      (detectPhase items st.lastReportHashes st.sentReportHashes).1
      (detectPhase items st.lastReportHashes st.sentReportHashes).2 []).1.length ≤ 2000 := by
    have h1 := notify_size sendOk (detectPhase items st.lastReportHashes st.sentReportHashes).1
      (detectPhase items st.lastReportHashes st.sentReportHashes).2 []
    have h2 := detect_size st.lastReportHashes items ([], st.sentReportHashes)
    simp only [List.length_nil] at h2
    unfold detectPhase at h1 ⊢
    omega
  constructor
  · simp only
    split
    · rw [evict_eq_of_le hbound]
      exact hnot
    · exact hnot
  · simp only
    intro hin
    rcases notify_notif_source sendOk _ _ _ hin with h1 | h1
    · exact List.not_mem_nil _ h1
    · obtain ⟨it, hit, hh, _, _⟩ := h1
      rcases detect_news_source st.lastReportHashes items _ hit with h2 | h2
      · exact List.not_mem_nil it h2
      · have hiteq : it = item :=
          List.inj_on_of_nodup_map hnodup h2.1 hmem hh
        rw [hiteq] at h2
        rw [h2.2.1] at hfresh
        exact Bool.true_eq_false.mp hfresh

/-- Witness for `C6_stale_new_item_suppressed`: one new but stale item on the
second cycle. -/
theorem C6_stale_new_item_suppressed_witness :
    ("bb22" : String) ∈ (checkForNewReports
      { checkCount := 3, lastReportHashes := ["zz"], sentReportHashes := ["yy"] }
      [{ contentHash := "bb22", timeAgo := "3 hours ago", finalAmountLost := "70,000 USD" }]
      (fun _ => true)).1.sentReportHashes ∧
    ("bb22" : String) ∉ (checkForNewReports
      { checkCount := 3, lastReportHashes := ["zz"], sentReportHashes := ["yy"] }
      [{ contentHash := "bb22", timeAgo := "3 hours ago", finalAmountLost := "70,000 USD" }]
      (fun _ => true)).2 := by
  have h := C6_stale_new_item_suppressed
    { checkCount := 3, lastReportHashes := ["zz"], sentReportHashes := ["yy"] }
    [{ contentHash := "bb22", timeAgo := "3 hours ago", finalAmountLost := "70,000 USD" }]
    (fun _ => true)
    { contentHash := "bb22", timeAgo := "3 hours ago", finalAmountLost := "70,000 USD" }
    (by decide) (by decide) (List.mem_singleton.mpr rfl) (by decide) (by decide)
    (by decide) (by decide)
  exact h

/-- C4 counterexample: a steady cycle with one new, fresh, significant report
whose Telegram send fails.  `sendTelegramMessage` rethrows (route.ts line
324), the exception reaches the `catch` of line 2047, and the commit of line
2016 — which comes after the `await` of the send on line 2014 — never runs:
contrary to the claim, the fingerprint is NOT in the dedup store after the
cycle. -/
theorem C4_send_failure_counterexample :
    ("h1" : String) ∉ (checkForNewReports
      { checkCount := 1, lastReportHashes := [], sentReportHashes := [] }
      [{ contentHash := "h1", timeAgo := "1 minute ago", finalAmountLost := "20,000 USD" }]
      (fun _ => false)).1.sentReportHashes := by decide

/-- C4 amended: when the notification send for a newly detected report fails,
the error aborts the cycle through the outer catch and the report's
fingerprint is NOT committed to the dedup store; the cycle has however
already replaced the previous-cycle snapshot with the current one (route.ts
lines 1891-1892), so no later cycle notifies that fingerprint while it stays
in the snapshot chain — here stated for the immediately following cycle. -/
theorem C4_send_failure_not_committed (st : MonitorState) (items : List CycleItem)
    (sendOk : String → Bool) (item : CycleItem)
    (hcc : st.checkCount ≠ 0)
    (hnodup : (items.map CycleItem.contentHash).Nodup)
    (hmem : item ∈ items)
    (hnlast : item.contentHash ∉ st.lastReportHashes)
    (hnsent : item.contentHash ∉ st.sentReportHashes)
    (hfresh : isVeryFresh item.timeAgo = true)
    (hsig : isAmountUSDSignificant item.finalAmountLost = true)
    (hsend : sendOk item.contentHash = false) :
    item.contentHash ∉ (checkForNewReports st items sendOk).1.sentReportHashes ∧
    (checkForNewReports st items sendOk).1.lastReportHashes =
      jsSetOfList (items.map CycleItem.contentHash) ∧
    ∀ (items2 : List CycleItem) (sendOk2 : String → Bool),
      item.contentHash ∉
        (checkForNewReports (checkForNewReports st items sendOk).1 items2 sendOk2).2 := by
  rw [cycle_steady_eq st items sendOk hcc]
  have hsent : ∀ y, y ∈ (notifyPhase sendOk
      (detectPhase items st.lastReportHashes st.sentReportHashes).1
      (detectPhase items st.lastReportHashes st.sentReportHashes).2 []).1 →
      y = item.contentHash → False := by
    intro y hy hyeq
    subst hyeq
    rcases notify_sent_source sendOk _ _ _ hy with h1 | h1
    · rcases detect_sent_source st.lastReportHashes items _ h1 with h2 | h2
      · exact hnsent h2
      · obtain ⟨it, hit, hh, hfr⟩ := h2
        have hiteq : it = item := List.inj_on_of_nodup_map hnodup hit hmem hh
        rw [hiteq] at hfr
        rw [hfr] at hfresh
        exact Bool.false_eq_true.mp hfresh
    · obtain ⟨it, hit, hh, hc⟩ := h1
      have hitmem : it ∈ items := by
        rcases detect_news_source st.lastReportHashes items _ hit with h2 | h2
        · exact absurd h2 (List.not_mem_nil it)
        · exact h2.1
      have hiteq : it = item := List.inj_on_of_nodup_map hnodup hitmem hmem hh
      rcases hc with hc | hc
      · rw [hiteq] at hc
        rw [hc] at hsig
        exact Bool.false_eq_true.mp hsig
      · rw [hc] at hsend
        exact Bool.true_eq_false.mp hsend
  refine ⟨?_, rfl, ?_⟩
  · simp only
    intro hin
    split at hin
    · exact hsent _ (mem_of_mem_evict hin) rfl
    · exact hsent _ hin rfl
  · intro items2 sendOk2
    refine cycle_notified_not_in_prev _ items2 sendOk2 ?_
    simp only
    exact mem_foldl_jsSetAdd_of_mem_list _ _ (List.mem_map_of_mem _ hmem)

/-- Witness for `C4_send_failure_not_committed` at a concrete failing send. -/
theorem C4_send_failure_not_committed_witness :
    ("cc33" : String) ∉ (checkForNewReports
      { checkCount := 5, lastReportHashes := ["qq"], sentReportHashes := ["rr"] }
      [{ contentHash := "cc33", timeAgo := "2 minutes ago", finalAmountLost := "15,000 USD" }]
      (fun _ => false)).1.sentReportHashes ∧
    ("cc33" : String) ∉ (checkForNewReports
      (checkForNewReports
        { checkCount := 5, lastReportHashes := ["qq"], sentReportHashes := ["rr"] }
        [{ contentHash := "cc33", timeAgo := "2 minutes ago", finalAmountLost := "15,000 USD" }]
        (fun _ => false)).1
      [{ contentHash := "cc33", timeAgo := "8 minutes ago", finalAmountLost := "15,000 USD" }]
      (fun _ => true)).2 := by
  have h := C4_send_failure_not_committed
    { checkCount := 5, lastReportHashes := ["qq"], sentReportHashes := ["rr"] }
    [{ contentHash := "cc33", timeAgo := "2 minutes ago", finalAmountLost := "15,000 USD" }]
    (fun _ => false)
    { contentHash := "cc33", timeAgo := "2 minutes ago", finalAmountLost := "15,000 USD" }
    (by decide) (by decide) (List.mem_singleton.mpr rfl) (by decide) (by decide)
    (by decide) (by decide) rfl
  exact ⟨h.1, h.2.2
    [{ contentHash := "cc33", timeAgo := "8 minutes ago", finalAmountLost := "15,000 USD" }]
    (fun _ => true)⟩

/-- The 2000 distinct follow-up fingerprints used by the C7 witness: the
strings `"a"`, `"aa"`, ..., of pairwise distinct lengths. -/
def c7RestList : List String :=
  (List.range 2000).map (fun n => String.mk (List.replicate (n + 1) 'a'))

theorem c7RestList_nodup : ("" :: c7RestList).Nodup := by
  have hinj : Function.Injective (fun n => String.mk (List.replicate (n + 1) 'a')) := by
    intro a b hab
    have h1 : List.replicate (a + 1) 'a' = List.replicate (b + 1) 'a' :=
      congrArg String.data hab
    have h2 := congrArg List.length h1
    simp only [List.length_replicate] at h2
    omega
  refine List.nodup_cons.mpr ⟨?_, List.Nodup.map hinj (List.nodup_range 2000)⟩
  intro hmem
  obtain ⟨n, _, hn⟩ := List.mem_map.mp hmem
  have h2 := congrArg (fun s => s.data.length) hn
  simp only [List.length_replicate] at h2
  simp at h2

/-- Witness for `C7_eviction_boundary` on the concrete 2001-element
insertion sequence. -/
theorem C7_eviction_boundary_witness :
    evictSentHashes (("" :: c7RestList).foldl jsSetAdd []) = c7RestList ∧
    (evictSentHashes (("" :: c7RestList).foldl jsSetAdd [])).length = 2000 ∧
    ("" : String) ∉ evictSentHashes (("" :: c7RestList).foldl jsSetAdd []) := by
  have h := C7_eviction_boundary "" c7RestList c7RestList_nodup
    (by simp [c7RestList])
  exact ⟨h.1, h.2.1, h.2.2.1⟩

/-! ### Lemmas for the monetary filter (C9) -/

theorem dropWhile_eq_self_of_all {p : Char → Bool} :
    ∀ {l : List Char}, (∀ c ∈ l, p c = false) → l.dropWhile p = l := by
  intro l h
  cases l with
  | nil => rfl
  | cons c rest =>
    rw [List.dropWhile_cons]
    rw [h c (List.mem_cons_self _ _)]
    simp

theorem takeWhile_eq_self_of_all {p : Char → Bool} :
    ∀ {l : List Char}, (∀ c ∈ l, p c = true) → l.takeWhile p = l := by
  intro l
  induction l with
  | nil => intro _; rfl
  | cons c rest ih =>
    intro h
    rw [List.takeWhile_cons]
    rw [h c (List.mem_cons_self _ _)]
    simp only [if_true]
    rw [ih (fun x hx => h x (List.mem_cons_of_mem c hx))]

theorem takeWhile_eq_nil_of_head {p : Char → Bool} :
    ∀ {l : List Char}, (∀ c ∈ l, p c = false) → l.takeWhile p = [] := by
  intro l h
  cases l with
  | nil => rfl
  | cons c rest =>
    rw [List.takeWhile_cons, h c (List.mem_cons_self _ _)]
    simp

theorem jsTrim_eq_self {l : List Char} (h : ∀ c ∈ l, isSpaceChar c = false) :
    jsTrim l = l := by
  unfold jsTrim
  rw [dropWhile_eq_self_of_all h]
  rw [dropWhile_eq_self_of_all (fun c hc => h c (List.mem_reverse.mp hc))]
  exact List.reverse_reverse l

theorem digit_not_space {c : Char} (h : isDigitChar c = true) : isSpaceChar c = false := by
  simp only [isDigitChar, Bool.and_eq_true, decide_eq_true_eq] at h
  cases hsp : isSpaceChar c
  · rfl
  · exfalso
    simp only [isSpaceChar, Bool.or_eq_true, Bool.and_eq_true, decide_eq_true_eq,
      beq_iff_eq] at hsp
    omega

/-- A character whose code lies outside both the uppercase range and the
lowercase image of `l` never case-insensitively equals `l`. -/
theorem ciChar_false_of_codes {c l : Char} (h1 : c.toNat ≠ l.toNat)
    (h2 : ¬ (65 ≤ c.toNat ∧ c.toNat ≤ 90 ∧ c.toNat + 32 = l.toNat)) :
    ciChar c l = false := by
  cases hcc : ciChar c l
  · rfl
  · exfalso
    simp only [ciChar, lowerCode, beq_iff_eq] at hcc
    split at hcc
    · rename_i hr
      simp only [Bool.and_eq_true, decide_eq_true_eq] at hr
      exact h2 ⟨hr.1, hr.2, hcc⟩
    · exact h1 hcc

theorem digit_not_a {c : Char} (h : isDigitChar c = true) : ciChar c 'a' = false := by
  simp only [isDigitChar, Bool.and_eq_true, decide_eq_true_eq] at h
  have ha : ('a').toNat = 97 := rfl
  exact ciChar_false_of_codes (by rw [ha]; omega) (by rw [ha]; omega)

theorem digit_not_u {c : Char} (h : isDigitChar c = true) : ciChar c 'u' = false := by
  simp only [isDigitChar, Bool.and_eq_true, decide_eq_true_eq] at h
  have hu : ('u').toNat = 117 := rfl
  exact ciChar_false_of_codes (by rw [hu]; omega) (by rw [hu]; omega)

theorem replaceAmountLostAux_id :
    ∀ (fuel : Nat) (cs : List Char), (∀ c ∈ cs, ciChar c 'a' = false) →
      replaceAmountLostAux fuel cs = cs := by
  intro fuel
  induction fuel with
  | zero => intro cs _; cases cs <;> rfl
  | succ f ih =>
    intro cs h
    cases cs with
    | nil => rfl
    | cons c rest =>
      have hc : ciChar c 'a' = false := h c (List.mem_cons_self _ _)
      unfold replaceAmountLostAux
      have hcs : ciStartsWith (c :: rest) ('a' :: 'm' :: 'o' :: 'u' :: 'n' :: 't' :: []) = false := by
        unfold ciStartsWith
        rw [hc]
        simp
      rw [hcs]
      simp only [Bool.false_eq_true, if_false]
      rw [ih rest (fun x hx => h x (List.mem_cons_of_mem c hx))]

theorem replaceLitCIAux_usd_strip :
    ∀ (a : List Char) (fuel : Nat), (∀ c ∈ a, ciChar c 'u' = false) →
      a.length + 3 ≤ fuel →
      replaceLitCIAux ('u' :: 's' :: 'd' :: []) [] fuel (a ++ ('U' :: 'S' :: 'D' :: [])) = a := by
  intro a
  induction a with
  | nil =>
    intro fuel _ hf
    obtain ⟨f, hfe⟩ : ∃ f, fuel = f + 1 := ⟨fuel - 1, by omega⟩
    subst hfe
    simp only [List.nil_append]
    unfold replaceLitCIAux
    rw [if_pos (by decide)]
    simp only [List.length_cons, List.length_nil, List.drop_succ_cons, List.drop_nil,
      List.nil_append]
    cases f <;> rfl
  | cons c a ih =>
    intro fuel h hf
    obtain ⟨f, hfe⟩ : ∃ f, fuel = f + 1 := ⟨fuel - 1, by omega⟩
    subst hfe
    have hc : ciChar c 'u' = false := h c (List.mem_cons_self _ _)
    simp only [List.cons_append]
    unfold replaceLitCIAux
    have hcs : ciStartsWith (c :: (a ++ ('U' :: 'S' :: 'D' :: [])))
        ('u' :: 's' :: 'd' :: []) = false := by
      unfold ciStartsWith
      rw [hc]
      simp
    rw [hcs]
    simp only [Bool.false_eq_true, if_false]
    rw [ih f (fun x hx => h x (List.mem_cons_of_mem c hx)) (by simpa using hf)]

theorem jsIncludes_append_left {n : List Char} :
    ∀ (a b : List Char), jsIncludes b n = true → jsIncludes (a ++ b) n = true := by
  intro a
  induction a with
  | nil => intro b h; simpa using h
  | cons c a ih =>
    intro b h
    simp only [List.cons_append]
    change (listStartsWith (c :: (a ++ b)) n || jsIncludes (a ++ b) n) = true
    rw [ih b h]
    simp

theorem replaceAmountLostAux_nil (fuel : Nat) : replaceAmountLostAux fuel [] = [] := by
  cases fuel <;> rfl

theorem replaceAmountLostAux_subset :
    ∀ (fuel : Nat) (cs : List Char) (c : Char), c ∈ replaceAmountLostAux fuel cs → c ∈ cs := by
  intro fuel
  induction fuel with
  | zero =>
    intro cs c h
    cases cs with
    | nil => rw [replaceAmountLostAux_nil] at h; exact absurd h (List.not_mem_nil c)
    | cons a rest => exact h
  | succ f ih =>
    intro cs c h
    cases cs with
    | nil => rw [replaceAmountLostAux_nil] at h; exact absurd h (List.not_mem_nil c)
    | cons a rest =>
      simp only [replaceAmountLostAux] at h
      split at h
      · split at h
        · have h2 := ih _ _ h
          exact List.mem_of_mem_drop (List.mem_of_mem_drop h2)
        · rcases List.mem_cons.mp h with h2 | h2
          · simp [h2]
          · exact List.mem_cons_of_mem a (ih _ _ h2)
      · rcases List.mem_cons.mp h with h2 | h2
        · simp [h2]
        · exact List.mem_cons_of_mem a (ih _ _ h2)

theorem replaceLitCIAux_nil (lit rep : List Char) (fuel : Nat) :
    replaceLitCIAux lit rep fuel [] = [] := by
  cases fuel <;> rfl

theorem replaceLitCIAux_subset (lit : List Char) :
    ∀ (fuel : Nat) (cs : List Char) (c : Char),
      c ∈ replaceLitCIAux lit [] fuel cs → c ∈ cs := by
  intro fuel
  induction fuel with
  | zero =>
    intro cs c h
    cases cs with
    | nil => rw [replaceLitCIAux_nil] at h; exact absurd h (List.not_mem_nil c)
    | cons a rest => exact h
  | succ f ih =>
    intro cs c h
    cases cs with
    | nil => rw [replaceLitCIAux_nil] at h; exact absurd h (List.not_mem_nil c)
    | cons a rest =>
      unfold replaceLitCIAux at h
      split at h
      · simp only [List.nil_append] at h
        exact List.mem_of_mem_drop (ih _ _ h)
      · rcases List.mem_cons.mp h with h2 | h2
        · simp [h2]
        · exact List.mem_cons_of_mem a (ih _ _ h2)

theorem firstNumRun_subset :
    ∀ (cs run : List Char), firstNumRun cs = some run → ∀ c ∈ run, c ∈ cs := by
  intro cs
  induction cs with
  | nil => intro run h; simp [firstNumRun] at h
  | cons a rest ih =>
    intro run h c hc
    unfold firstNumRun at h
    split at h
    · have h2 : run = (a :: rest).takeWhile
          (fun x => isDigitChar x || x == ',' || x == '.' || isSpaceChar x) := by
        exact (Option.some.injEq _ _ ▸ h).symm
      rw [h2] at hc
      exact (List.takeWhile_sublist _).subset hc
    · exact List.mem_cons_of_mem a (ih run h c hc)

theorem jsTrim_subset {l : List Char} {c : Char} (h : c ∈ jsTrim l) : c ∈ l := by
  unfold jsTrim at h
  rw [List.mem_reverse] at h
  have h2 := (List.dropWhile_sublist _).subset h
  rw [List.mem_reverse] at h2
  exact (List.dropWhile_sublist _).subset h2

theorem comma_not_a : ciChar ',' 'a' = false := by decide

theorem usd_chars_eq : " USD".data = ' ' :: 'U' :: 'S' :: 'D' :: [] := rfl

/-- Conjunct (a) of C9 in isolation: every comma-grouped digit string with
value at least 1, suffixed with `" USD"`, passes the filter. -/
theorem isAmount_true_on_usd_digits (ds : List Char) (hne : ds ≠ [])
    (hchars : ∀ c ∈ ds, isDigitChar c = true ∨ c = ',')
    (hval : 1 ≤ digitsToNat (ds.filter (fun c => !(c == ',')))) :
    isAmountUSDSignificant (String.mk (ds ++ " USD".data)) = true := by
  have hA : ∀ c ∈ ds ++ " USD".data, ciChar c 'a' = false := by
    intro c hc
    rcases List.mem_append.mp hc with h1 | h1
    · rcases hchars c h1 with h2 | h2
      · exact digit_not_a h2
      · subst h2; decide
    · rw [usd_chars_eq] at h1
      rcases List.mem_cons.mp h1 with h2 | h1
      · subst h2; decide
      rcases List.mem_cons.mp h1 with h2 | h1
      · subst h2; decide
      rcases List.mem_cons.mp h1 with h2 | h1
      · subst h2; decide
      rcases List.mem_cons.mp h1 with h2 | h1
      · subst h2; decide
      · exact absurd h1 (List.not_mem_nil c)
  have hU : ∀ c ∈ ds ++ [' '], ciChar c 'u' = false := by
    intro c hc
    rcases List.mem_append.mp hc with h1 | h1
    · rcases hchars c h1 with h2 | h2
      · exact digit_not_u h2
      · subst h2; decide
    · have h2 : c = ' ' := List.mem_singleton.mp h1
      subst h2; decide
  have hnospace : ∀ c ∈ ds, isSpaceChar c = false := by
    intro c hc
    rcases hchars c hc with h2 | h2
    · exact digit_not_space h2
    · subst h2; decide
  have hstep1 : replaceAmountLost (ds ++ " USD".data) = ds ++ " USD".data :=
    replaceAmountLostAux_id _ _ hA
  have hsplit : ds ++ " USD".data = (ds ++ [' ']) ++ ('U' :: 'S' :: 'D' :: []) := by
    rw [List.append_assoc]
    rfl
  have hstep2 : replaceLitCI ('u' :: 's' :: 'd' :: []) [] (ds ++ " USD".data) = ds ++ [' '] := by
    unfold replaceLitCI
    rw [hsplit]
    refine replaceLitCIAux_usd_strip (ds ++ [' ']) _ hU ?_
    simp
  have hfilterdollar : (ds ++ [' ']).filter (fun c => !(c == '$')) = ds ++ [' '] := by
    rw [List.filter_eq_self]
    intro c hc
    rcases List.mem_append.mp hc with h1 | h1
    · rcases hchars c h1 with h2 | h2
      · simp only [isDigitChar, Bool.and_eq_true, decide_eq_true_eq] at h2
        simp only [Bool.not_eq_eq_eq_not, Bool.not_true, beq_eq_false_iff_ne, ne_eq]
        intro hd
        subst hd
        simp at h2
      · subst h2; decide
    · have h2 : c = ' ' := List.mem_singleton.mp h1
      subst h2; decide
  have hfiltercolon : (ds ++ [' ']).filter (fun c => !(c == ':')) = ds ++ [' '] := by
    rw [List.filter_eq_self]
    intro c hc
    rcases List.mem_append.mp hc with h1 | h1
    · rcases hchars c h1 with h2 | h2
      · simp only [isDigitChar, Bool.and_eq_true, decide_eq_true_eq] at h2
        simp only [Bool.not_eq_eq_eq_not, Bool.not_true, beq_eq_false_iff_ne, ne_eq]
        intro hd
        subst hd
        simp at h2
      · subst h2; decide
    · have h2 : c = ' ' := List.mem_singleton.mp h1
      subst h2; decide
  have htrim : jsTrim (ds ++ [' ']) = ds := by
    cases ds with
    | nil => exact absurd rfl hne
    | cons d ds2 =>
      unfold jsTrim
      have hd : isSpaceChar d = false := hnospace d (List.mem_cons_self _ _)
      rw [List.cons_append, List.dropWhile_cons, hd]
      simp only [Bool.false_eq_true, if_false]
      have hrev : ((d :: ds2) ++ [' ']).reverse = ' ' :: (d :: ds2).reverse := by
        rw [List.reverse_append]
        rfl
      rw [← List.cons_append, hrev]
      rw [List.dropWhile_cons]
      have hsp : isSpaceChar ' ' = true := by decide
      rw [hsp]
      simp only [if_true]
      rw [dropWhile_eq_self_of_all
        (fun c hc => hnospace c (List.mem_reverse.mp hc))]
      exact List.reverse_reverse _
  have hclass : ∀ c ∈ ds, (isDigitChar c || c == ',' || c == '.' || isSpaceChar c) = true := by
    intro c hc
    rcases hchars c hc with h2 | h2
    · rw [h2]; simp
    · subst h2; decide
  have hrun : firstNumRun ds = some ds := by
    cases ds with
    | nil => exact absurd rfl hne
    | cons d ds2 =>
      unfold firstNumRun
      have hd := hclass d (List.mem_cons_self _ _)
      rcases hchars d (List.mem_cons_self _ _) with h2 | h2
      · rw [h2]
        simp only [Bool.true_or, if_true]
        rw [takeWhile_eq_self_of_all hclass]
      · subst h2
        simp only [if_pos (by decide : ((isDigitChar ',' || ',' == ',' || ',' == '.' ||
          isSpaceChar ',') = true))]
        rw [takeWhile_eq_self_of_all hclass]
  have hdsddigits : ∀ c ∈ ds.filter (fun c => !(c == ',')), isDigitChar c = true := by
    intro c hc
    have h1 := List.mem_of_mem_filter hc
    have h2 := List.of_mem_filter hc
    rcases hchars c h1 with h3 | h3
    · exact h3
    · subst h3
      simp at h2
  have hdsdne : ds.filter (fun c => !(c == ',')) ≠ [] := by
    intro heq
    rw [heq] at hval
    simp [digitsToNat] at hval
  have hfilterspace : (ds.filter (fun c => !(c == ','))).filter (fun c => !isSpaceChar c) =
      ds.filter (fun c => !(c == ',')) := by
    rw [List.filter_eq_self]
    intro c hc
    rw [digit_not_space (hdsddigits c hc)]
    rfl
  have htrim2 : jsTrim (ds.filter (fun c => !(c == ','))) = ds.filter (fun c => !(c == ',')) :=
    jsTrim_eq_self (fun c hc => digit_not_space (hdsddigits c hc))
  have hparse : jsParseFloat (ds.filter (fun c => !(c == ','))) =
      some (digitsToNat (ds.filter (fun c => !(c == ','))), 0) := by
    have h1 : (ds.filter (fun c => !(c == ','))).takeWhile isDigitChar =
        ds.filter (fun c => !(c == ',')) := takeWhile_eq_self_of_all hdsddigits
    simp only [jsParseFloat, h1, List.drop_length]
    have h2 : (ds.filter (fun c => !(c == ','))).isEmpty = false := by
      cases hq : ds.filter (fun c => !(c == ','))
      · exact absurd hq hdsdne
      · rfl
    rw [h2]
    rfl
  have hgate : jsIncludes (jsToLower (ds ++ " USD".data)) ('u' :: 's' :: 'd' :: []) = true := by
    unfold jsToLower
    rw [List.map_append]
    refine jsIncludes_append_left _ _ ?_
    rw [usd_chars_eq]
    decide
  have hnonempty : (ds ++ " USD".data).isEmpty = false := by
    rw [usd_chars_eq]
    cases ds <;> rfl
  simp only [isAmountUSDSignificant]
  rw [usd_chars_eq] at hstep1 hstep2 hgate hnonempty
  rw [hnonempty, hgate]
  simp only [Bool.not_true, Bool.false_and, Bool.false_eq_true, if_false]
  rw [hstep1, hstep2, hfilterdollar, hfiltercolon, htrim, hrun]
  simp only
  rw [hfilterspace, htrim2, hparse]
  simp only [pow_zero]
  exact decide_eq_true hval

theorem jsParseFloat_none_of_no_digit {cs : List Char}
    (h : ∀ c ∈ cs, isDigitChar c = false) : jsParseFloat cs = none := by
  have hd : cs.takeWhile isDigitChar = [] := takeWhile_eq_nil_of_head h
  simp only [jsParseFloat, hd, List.length_nil, List.drop_zero]
  split
  · rename_i t1 t2
    have hr2 : t2.takeWhile isDigitChar = [] := by
      refine takeWhile_eq_nil_of_head ?_
      intro c hc
      exact h c (List.mem_cons_of_mem _ hc)
    rw [hr2]
    simp
  · simp

theorem isAmount_false_no_digit (s : String)
    (h : ∀ c ∈ s.data, isDigitChar c = false) : isAmountUSDSignificant s = false := by
  simp only [isAmountUSDSignificant]
  split
  · rfl
  · split
    · rfl
    · have hclean : ∀ c ∈ jsTrim ((((replaceLitCI ('u' :: 's' :: 'd' :: []) []
          (replaceAmountLost s.data)).filter (fun c => !(c == '$'))).filter
            (fun c => !(c == ':')))), isDigitChar c = false := by
        intro c hc
        have h1 := jsTrim_subset hc
        have h2 := List.mem_of_mem_filter h1
        have h3 := List.mem_of_mem_filter h2
        have h4 := replaceLitCIAux_subset _ _ _ _ h3
        have h5 := replaceAmountLostAux_subset _ _ _ h4
        exact h c h5
      split
      · rfl
      · rename_i run hr
        have hrun : ∀ c ∈ run, isDigitChar c = false := by
          intro c hc
          exact hclean c (firstNumRun_subset _ _ hr c hc)
        have hnum : ∀ c ∈ jsTrim ((run.filter (fun c => !(c == ','))).filter
            (fun c => !isSpaceChar c)), isDigitChar c = false := by
          intro c hc
          have h1 := jsTrim_subset hc
          have h2 := List.mem_of_mem_filter h1
          have h3 := List.mem_of_mem_filter h2
          exact hrun c h3
        rw [jsParseFloat_none_of_no_digit hnum]

theorem isAmount_false_not_usd (s : String)
    (h1 : jsIncludes (jsToLower s.data) ('u' :: 's' :: 'd' :: []) = false)
    (h2 : s.data.contains '$' = false) : isAmountUSDSignificant s = false := by
  simp only [isAmountUSDSignificant, h1, h2]
  split
  · rfl
  · rfl

/-- C9: the monetary-significance filter is effectively disabled — despite
the comments describing a $10,000 threshold, the final test of route.ts line
1557 is `amount >= 1`.  (a) every comma-grouped digit amount of value at
least 1 suffixed `" USD"` passes, (b) in particular the claim's example
`"5 USD"` passes, (c) the empty string fails, (d) strings that mention
neither USD nor `$` fail, and (e) strings containing no digit at all (no
parsable number) fail. -/
theorem C9_threshold_effectively_disabled :
    (∀ ds : List Char, ds ≠ [] → (∀ c ∈ ds, isDigitChar c = true ∨ c = ',') →
      1 ≤ digitsToNat (ds.filter (fun c => !(c == ','))) →
      isAmountUSDSignificant (String.mk (ds ++ " USD".data)) = true) ∧
    isAmountUSDSignificant "5 USD" = true ∧
    isAmountUSDSignificant "" = false ∧
    (∀ s : String, jsIncludes (jsToLower s.data) ('u' :: 's' :: 'd' :: []) = false →
      s.data.contains '$' = false → isAmountUSDSignificant s = false) ∧
    (∀ s : String, (∀ c ∈ s.data, isDigitChar c = false) →
      isAmountUSDSignificant s = false) := by
  refine ⟨isAmount_true_on_usd_digits, by decide, by decide,
    isAmount_false_not_usd, isAmount_false_no_digit⟩

/-- Witness for `C9_threshold_effectively_disabled` on concrete inputs:
`"12,500 USD"` passes; `"5000 EUR"` and `". USD"` fail. -/
theorem C9_threshold_effectively_disabled_witness :
    isAmountUSDSignificant (String.mk (('1' :: '2' :: ',' :: '5' :: '0' :: '0' :: []) ++
      " USD".data)) = true ∧
    isAmountUSDSignificant "5 USD" = true ∧
    isAmountUSDSignificant "" = false ∧
    isAmountUSDSignificant "5000 EUR" = false ∧
    isAmountUSDSignificant ". USD" = false := by
  have h := C9_threshold_effectively_disabled
  refine ⟨h.1 ('1' :: '2' :: ',' :: '5' :: '0' :: '0' :: []) (by decide) (by decide) (by decide),
    h.2.1, h.2.2.1, h.2.2.2.1 "5000 EUR" (by decide) (by decide),
    h.2.2.2.2 ". USD" (by decide)⟩

/-! ### Lemmas for the address extraction (C8) -/

theorem listStartsWith_length : ∀ {h n : List Char}, listStartsWith h n = true →
    n.length ≤ h.length := by
  intro h
  induction h with
  | nil =>
    intro n hs
    cases n with
    | nil => simp
    | cons x xs => simp [listStartsWith] at hs
  | cons c rest ih =>
    intro n hs
    cases n with
    | nil => simp
    | cons x xs =>
      simp only [listStartsWith, Bool.and_eq_true] at hs
      have := ih hs.2
      simp only [List.length_cons]
      omega

theorem listStartsWith_eq_of_length : ∀ {h n : List Char}, listStartsWith h n = true →
    h.length = n.length → h = n := by
  intro h
  induction h with
  | nil =>
    intro n hs hl
    cases n with
    | nil => rfl
    | cons x xs => simp at hl
  | cons c rest ih =>
    intro n hs hl
    cases n with
    | nil => simp at hl
    | cons x xs =>
      simp only [listStartsWith, Bool.and_eq_true, beq_iff_eq] at hs
      simp only [List.length_cons] at hl
      rw [hs.1, ih hs.2 (by omega)]

theorem jsIncludes_length : ∀ {h n : List Char}, jsIncludes h n = true →
    n.length ≤ h.length := by
  intro h
  induction h with
  | nil =>
    intro n hs
    unfold jsIncludes at hs
    exact listStartsWith_length hs
  | cons c rest ih =>
    intro n hs
    unfold jsIncludes at hs
    rcases Bool.or_eq_true _ _ |>.mp hs with h1 | h1
    · exact listStartsWith_length h1
    · have := ih h1
      simp only [List.length_cons]
      omega

theorem jsIncludes_eq_of_length : ∀ {h n : List Char}, jsIncludes h n = true →
    h.length = n.length → h = n := by
  intro h
  induction h with
  | nil =>
    intro n hs hl
    unfold jsIncludes at hs
    exact listStartsWith_eq_of_length hs hl
  | cons c rest ih =>
    intro n hs hl
    unfold jsIncludes at hs
    rcases Bool.or_eq_true _ _ |>.mp hs with h1 | h1
    · exact listStartsWith_eq_of_length h1 hl
    · exfalso
      have := jsIncludes_length h1
      simp only [List.length_cons] at hl
      omega

/-- Strict containment is antisymmetry-breaking: if `b` strictly contains `a`
then `a` cannot contain `b`. -/
theorem not_includes_of_strict {a b : String} (hfrag : jsIncludes b.data a.data = true)
    (hne : a ≠ b) : jsIncludes a.data b.data = false := by
  cases hab : jsIncludes a.data b.data
  · rfl
  · exfalso
    have h1 := jsIncludes_length hfrag
    have h2 := jsIncludes_length hab
    have h3 : b.data = a.data := jsIncludes_eq_of_length hfrag (by omega)
    exact hne (String.ext h3.symm)

theorem fragLoop_replace (b : String) :
    ∀ (l1 : List String) (a : String) (l2 : List String),
      (∀ x ∈ l1, jsIncludes x.data b.data = false ∧ jsIncludes b.data x.data = false) →
      jsIncludes b.data a.data = true → a ≠ b →
      fragLoop b (l1 ++ a :: l2) = some (l1 ++ b :: l2) := by
  intro l1
  induction l1 with
  | nil =>
    intro a l2 _ hfrag hne
    simp only [List.nil_append]
    unfold fragLoop
    have hnab : jsIncludes a.data b.data = false := not_includes_of_strict hfrag hne
    rw [hnab]
    have hbne : (a != b) = true := bne_iff_ne.mpr hne
    rw [hfrag, hbne]
    simp
  | cons x l1 ih =>
    intro a l2 hl1 hfrag hne
    simp only [List.cons_append]
    unfold fragLoop
    have hx := hl1 x (List.mem_cons_self _ _)
    rw [hx.1, hx.2]
    simp only [Bool.false_and, Bool.false_eq_true, if_false]
    rw [ih a l2 (fun y hy => hl1 y (List.mem_cons_of_mem x hy)) hfrag hne]
    rfl

theorem processMatch_skip_overlap (st : ExtractState) (m : RawMatch) (ps pe : Nat)
    (hmem : (ps, pe) ∈ st.processed) (h1 : ps ≤ m.start) (h2 : m.start < pe) :
    processMatch st m = st := by
  have hov : isOverlapping st.processed m.start (m.start + m.str.length) = true := by
    unfold isOverlapping
    rw [List.any_eq_true]
    refine ⟨(ps, pe), hmem, ?_⟩
    simp only
    rw [decide_eq_true h1, decide_eq_true h2]
    simp
  unfold processMatch
  rw [hov]
  simp

theorem processMatch_replace_fragment (st : ExtractState) (m : RawMatch)
    (l1 l2 : List String) (a b : String)
    (haddr : st.addresses = l1 ++ a :: l2)
    (hnov : isOverlapping st.processed m.start (m.start + m.str.length) = false)
    (hclean : String.mk (cleanAddress m.str) = b)
    (hvalid : isValidAddressShape b.data = true)
    (hlen : 25 ≤ b.data.length)
    (hnotin : b ∉ st.addresses)
    (hfrag : jsIncludes b.data a.data = true)
    (hne : a ≠ b)
    (hl1 : ∀ x ∈ l1, jsIncludes x.data b.data = false ∧ jsIncludes b.data x.data = false) :
    (processMatch st m).addresses = l1 ++ b :: l2 := by
  have hcont : st.addresses.contains b = false := by
    cases hq : st.addresses.contains b
    · rfl
    · exact absurd (listContains_iff.mp hq) hnotin
  have hdata : cleanAddress m.str = b.data := by rw [← hclean]
  unfold processMatch
  rw [hnov]
  simp only [Bool.false_eq_true, if_false, hclean, hdata]
  rw [hvalid, hcont, decide_eq_true hlen]
  simp only [Bool.and_true, Bool.not_false, Bool.and_self, if_true]
  rw [haddr, fragLoop_replace b l1 a l2 hl1 hfrag hne]

set_option maxRecDepth 400000 in
/-- C8: the address de-fragmentation behaviour of the extraction block
(route.ts lines 609-789 and identically 1023-1201).  (i) On raw text
containing `1A1zP1eP5QGefi2DMPTfTL5SLmv7DivfNaReported`, the extracted list
is exactly the clean 34-character address — the trailing `Reporte` taken by
the greedy Base58 run is stripped by the suffix rules, and the later generic
Base58 match over the same span is rejected by the overlap check, so no
shorter or longer fragment survives.  (ii) A raw match starting inside an
already-accepted span is discarded.  (iii) A later match cleaning to an
address that strictly contains an already-accepted address replaces it in
place. -/
theorem C8_address_defragmentation :
    extractAddresses "x 1A1zP1eP5QGefi2DMPTfTL5SLmv7DivfNaReported x" =
      ["1A1zP1eP5QGefi2DMPTfTL5SLmv7DivfNa"] ∧
    (∀ (st : ExtractState) (m : RawMatch) (ps pe : Nat), (ps, pe) ∈ st.processed →
      ps ≤ m.start → m.start < pe → processMatch st m = st) ∧
    (∀ (st : ExtractState) (m : RawMatch) (l1 l2 : List String) (a b : String),
      st.addresses = l1 ++ a :: l2 →
      isOverlapping st.processed m.start (m.start + m.str.length) = false →
      String.mk (cleanAddress m.str) = b →
      isValidAddressShape b.data = true →
      25 ≤ b.data.length →
      b ∉ st.addresses →
      jsIncludes b.data a.data = true →
      a ≠ b →
      (∀ x ∈ l1, jsIncludes x.data b.data = false ∧ jsIncludes b.data x.data = false) →
      (processMatch st m).addresses = l1 ++ b :: l2) := by
  refine ⟨by decide, processMatch_skip_overlap, ?_⟩
  intro st m l1 l2 a b h1 h2 h3 h4 h5 h6 h7 h8 h9
  exact processMatch_replace_fragment st m l1 l2 a b h1 h2 h3 h4 h5 h6 h7 h8 h9

set_option maxRecDepth 400000 in
/-- Witness for `C8_address_defragmentation`: the concrete scenario plus a
concrete overlapped skip and a concrete fragment replacement. -/
theorem C8_address_defragmentation_witness :
    extractAddresses "x 1A1zP1eP5QGefi2DMPTfTL5SLmv7DivfNaReported x" =
      ["1A1zP1eP5QGefi2DMPTfTL5SLmv7DivfNa"] ∧
    processMatch { processed := [(0, 10)], addresses := ["x"] }
      { start := 5, str := "abc".data } =
      { processed := [(0, 10)], addresses := ["x"] } ∧
    (processMatch { processed := [], addresses := ["1A1zP1eP5QGefi2DMPTfTL5SLmv7Di"] }
      { start := 0, str := "1A1zP1eP5QGefi2DMPTfTL5SLmv7DivfNa".data }).addresses =
      ["1A1zP1eP5QGefi2DMPTfTL5SLmv7DivfNa"] := by
  have h := C8_address_defragmentation
  refine ⟨h.1, ?_, ?_⟩
  · exact h.2.1 _ _ 0 10 (by simp) (by decide) (by decide)
  · have h3 := h.2.2 { processed := [], addresses := ["1A1zP1eP5QGefi2DMPTfTL5SLmv7Di"] }
      { start := 0, str := "1A1zP1eP5QGefi2DMPTfTL5SLmv7DivfNa".data }
      [] [] "1A1zP1eP5QGefi2DMPTfTL5SLmv7Di" "1A1zP1eP5QGefi2DMPTfTL5SLmv7DivfNa"
      rfl (by decide) (by decide) (by decide) (by decide) (by decide) (by decide)
      (by decide) (by intro x hx; exact absurd hx (List.not_mem_nil x))
    simpa using h3

/-! ### Lemmas for the fingerprint normalizer (C3): behaviour of the step-1
scanner under substitution of one recency phrase for another. -/

theorem spanLen_cons (p : Char → Bool) (c : Char) (t : List Char) :
    spanLen p (c :: t) = if p c then spanLen p t + 1 else 0 := rfl

theorem spanLen_le_length (p : Char → Bool) : ∀ (l : List Char), spanLen p l ≤ l.length := by
  intro l
  induction l with
  | nil => simp [spanLen]
  | cons c rest ih =>
    rw [spanLen_cons]
    split
    · simp only [List.length_cons]
      omega
    · simp

theorem spanLen_append_all {p : Char → Bool} {a : List Char}
    (h : ∀ c ∈ a, p c = true) (b : List Char) :
    spanLen p (a ++ b) = a.length + spanLen p b := by
  induction a with
  | nil => simp
  | cons c rest ih =>
    simp only [List.cons_append]
    rw [spanLen_cons, h c (List.mem_cons_self _ _)]
    simp only [if_true]
    rw [ih (fun x hx => h x (List.mem_cons_of_mem c hx))]
    simp only [List.length_cons]
    omega

theorem spanLen_head_false {p : Char → Bool} {c : Char} {t : List Char}
    (h : p c = false) : spanLen p (c :: t) = 0 := by
  rw [spanLen_cons, h]
  simp

theorem spanLen_append_of_lt {p : Char → Bool} :
    ∀ {a : List Char}, spanLen p a < a.length → ∀ (b : List Char),
      spanLen p (a ++ b) = spanLen p a := by
  intro a
  induction a with
  | nil => intro h; simp at h
  | cons c rest ih =>
    intro h b
    simp only [List.cons_append, spanLen_cons, List.length_cons] at h ⊢
    split
    · rename_i hc
      rw [hc] at h
      simp only [if_true] at h
      rw [ih (by omega) b]
    · rfl

theorem spanLen_eq_length_all {p : Char → Bool} :
    ∀ {a : List Char}, spanLen p a = a.length → ∀ c ∈ a, p c = true := by
  intro a
  induction a with
  | nil => intro _ c hc; exact absurd hc (List.not_mem_nil c)
  | cons x rest ih =>
    intro h c hc
    rw [spanLen_cons] at h
    split at h
    · rcases List.mem_cons.mp hc with h1 | h1
      · subst h1; assumption
      · simp only [List.length_cons] at h
        exact ih (by omega) c h1
    · simp only [List.length_cons] at h
      have := spanLen_le_length p rest
      omega

theorem drop_spanLen_head {p : Char → Bool} :
    ∀ {a : List Char}, spanLen p a < a.length →
      ∃ c t, a.drop (spanLen p a) = c :: t ∧ p c = false := by
  intro a
  induction a with
  | nil => intro h; simp at h
  | cons x rest ih =>
    intro h
    simp only [spanLen_cons, List.length_cons] at h ⊢
    split
    · rename_i hx
      rw [hx] at h
      simp only [if_true] at h
      obtain ⟨c, t, h1, h2⟩ := ih (by omega)
      exact ⟨c, t, by simpa using h1, h2⟩
    · rename_i hx
      refine ⟨x, rest, by simp, ?_⟩
      cases hq : p x
      · rfl
      · exact absurd hq hx

/-- Dissecting `isSpaceChar` into arithmetic facts about the code point. -/
theorem isSpaceChar_codes {c : Char} (h : isSpaceChar c = true) :
    c.toNat = 9 ∨ c.toNat = 10 ∨ c.toNat = 11 ∨ c.toNat = 12 ∨ c.toNat = 13 ∨
    c.toNat = 32 ∨ c.toNat = 160 ∨ c.toNat = 5760 ∨
    (8192 ≤ c.toNat ∧ c.toNat ≤ 8202) ∨ c.toNat = 8232 ∨ c.toNat = 8233 ∨
    c.toNat = 8239 ∨ c.toNat = 8287 ∨ c.toNat = 12288 ∨ c.toNat = 65279 := by
  simp only [isSpaceChar, Bool.or_eq_true, Bool.and_eq_true, decide_eq_true_eq,
    beq_iff_eq] at h
  tauto

theorem space_not_digit {c : Char} (h : isSpaceChar c = true) : isDigitChar c = false := by
  have h2 := isSpaceChar_codes h
  cases hq : isDigitChar c
  · rfl
  · exfalso
    simp only [isDigitChar, Bool.and_eq_true, decide_eq_true_eq] at hq
    omega

/-- A whitespace character never case-insensitively equals a lowercase
letter. -/
theorem space_ci_letter_false {c l : Char} (h : isSpaceChar c = true)
    (hl1 : 97 ≤ l.toNat) (hl2 : l.toNat ≤ 122) : ciChar c l = false := by
  have h2 := isSpaceChar_codes h
  refine ciChar_false_of_codes (by omega) (by omega)

/-- A digit never case-insensitively equals a lowercase letter. -/
theorem digit_ci_letter_false {c l : Char} (h : isDigitChar c = true)
    (hl1 : 97 ≤ l.toNat) (hl2 : l.toNat ≤ 122) : ciChar c l = false := by
  simp only [isDigitChar, Bool.and_eq_true, decide_eq_true_eq] at h
  refine ciChar_false_of_codes (by omega) (by omega)

/-- A character that case-insensitively equals a lowercase letter is not
whitespace. -/
theorem ci_letter_not_space {c l : Char} (h : ciChar c l = true)
    (hl1 : 97 ≤ l.toNat) (hl2 : l.toNat ≤ 122) : isSpaceChar c = false := by
  cases hq : isSpaceChar c
  · rfl
  · rw [space_ci_letter_false hq hl1 hl2] at h
    exact absurd h (by simp)

theorem ci_letter_not_digit {c l : Char} (h : ciChar c l = true)
    (hl1 : 97 ≤ l.toNat) (hl2 : l.toNat ≤ 122) : isDigitChar c = false := by
  cases hq : isDigitChar c
  · rfl
  · rw [digit_ci_letter_false hq hl1 hl2] at h
    exact absurd h (by simp)

/-- Matching one lowercase literal excludes matching a different one. -/
theorem ciChar_excl {c a b : Char} (h : ciChar c a = true) (hne : a.toNat ≠ b.toNat) :
    ciChar c b = false := by
  simp only [ciChar, beq_iff_eq] at h
  simp only [ciChar, beq_eq_false_iff_ne, ne_eq]
  rw [h]
  exact hne

theorem ciStartsWith_nil (s : List Char) : ciStartsWith s [] = true := by
  cases s <;> rfl

theorem ciStartsWith_append_of {u lit : List Char} (h : ciStartsWith u lit = true)
    (x : List Char) : ciStartsWith (u ++ x) lit = true := by
  induction u generalizing lit with
  | nil =>
    cases lit with
    | nil => simp [ciStartsWith]
    | cons l ls => simp [ciStartsWith] at h
  | cons c t ih =>
    cases lit with
    | nil => simp [ciStartsWith]
    | cons l ls =>
      simp only [ciStartsWith, Bool.and_eq_true] at h
      simp only [List.cons_append, ciStartsWith, Bool.and_eq_true]
      exact ⟨h.1, ih h.2⟩

theorem ciStartsWith_append_split {a l1 : List Char} (hlen : a.length = l1.length) :
    ∀ {b l2 : List Char}, ciStartsWith (a ++ b) (l1 ++ l2) = true →
      ciStartsWith a l1 = true ∧ ciStartsWith b l2 = true := by
  induction a generalizing l1 with
  | nil =>
    intro b l2 h
    cases l1 with
    | nil => exact ⟨rfl, by simpa using h⟩
    | cons x xs => simp at hlen
  | cons c t ih =>
    intro b l2 h
    cases l1 with
    | nil => simp at hlen
    | cons l ls =>
      simp only [List.cons_append, ciStartsWith, Bool.and_eq_true] at h
      simp only [List.length_cons] at hlen
      have h2 := ih (by omega) h.2
      exact ⟨by simp only [ciStartsWith, Bool.and_eq_true]; exact ⟨h.1, h2.1⟩, h2.2⟩

theorem ciStartsWith_append_build {a l1 : List Char} (h1 : ciStartsWith a l1 = true)
    (hlen : a.length = l1.length) :
    ∀ {b l2 : List Char}, ciStartsWith b l2 = true →
      ciStartsWith (a ++ b) (l1 ++ l2) = true := by
  induction a generalizing l1 with
  | nil =>
    intro b l2 h
    cases l1 with
    | nil => simpa using h
    | cons x xs => simp at hlen
  | cons c t ih =>
    intro b l2 h
    cases l1 with
    | nil => simp at hlen
    | cons l ls =>
      simp only [ciStartsWith, Bool.and_eq_true] at h1
      simp only [List.cons_append, ciStartsWith, Bool.and_eq_true]
      simp only [List.length_cons] at hlen
      exact ⟨h1.1, ih h1.2 (by omega) h⟩

/-- The suffix begins with a digit. -/
def HeadDigit (l : List Char) : Prop :=
  ∃ c t, l = c :: t ∧ isDigitChar c = true

/-- Case-insensitive literal matching over `s ++ suffix` does not depend on a
digit-headed suffix when the literal consists of lowercase letters. -/
theorem ciStartsWith_boundary_indep {lit : List Char}
    (hlet : ∀ l ∈ lit, 97 ≤ l.toNat ∧ l.toNat ≤ 122) :
    ∀ (s fa fb : List Char), HeadDigit fa → HeadDigit fb →
      ciStartsWith (s ++ fa) lit = ciStartsWith (s ++ fb) lit := by
  induction lit with
  | nil => intro s fa fb _ _; rw [ciStartsWith_nil, ciStartsWith_nil]
  | cons l ls ih =>
    intro s fa fb ha hb
    cases s with
    | nil =>
      obtain ⟨ca, ta, hea, hda⟩ := ha
      obtain ⟨cb, tb, heb, hdb⟩ := hb
      subst hea; subst heb
      simp only [List.nil_append, ciStartsWith]
      rw [digit_ci_letter_false hda (hlet l (List.mem_cons_self _ _)).1
        (hlet l (List.mem_cons_self _ _)).2,
        digit_ci_letter_false hdb (hlet l (List.mem_cons_self _ _)).1
        (hlet l (List.mem_cons_self _ _)).2]
      simp
    | cons c t =>
      simp only [List.cons_append, ciStartsWith, List.append_eq]
      rw [ih (fun x hx => hlet x (List.mem_cons_of_mem l hx)) t fa fb ha hb]

/-- A successful case-insensitive literal match cannot cross into a
digit-headed suffix: the literal fits inside `s`. -/
theorem ciStartsWith_boundary_length {lit : List Char}
    (hlet : ∀ l ∈ lit, 97 ≤ l.toNat ∧ l.toNat ≤ 122) :
    ∀ (s f : List Char), HeadDigit f → ciStartsWith (s ++ f) lit = true →
      lit.length ≤ s.length := by
  induction lit with
  | nil => intro s f _ _; simp
  | cons l ls ih =>
    intro s f hf h
    cases s with
    | nil =>
      obtain ⟨c, t, he, hd⟩ := hf
      subst he
      simp only [List.nil_append, ciStartsWith, Bool.and_eq_true] at h
      rw [digit_ci_letter_false hd (hlet l (List.mem_cons_self _ _)).1
        (hlet l (List.mem_cons_self _ _)).2] at h
      exact absurd h.1 (by simp)
    | cons c t =>
      simp only [List.cons_append, ciStartsWith, Bool.and_eq_true] at h
      have h2 := ih (fun x hx => hlet x (List.mem_cons_of_mem l hx)) t f hf h.2
      simp only [List.length_cons]
      omega

/-- Case-insensitive full-string equality against a lowercase literal. -/
def ciFullEq (a lit : List Char) : Bool := (a.length == lit.length) && ciStartsWith a lit

/-- `u` is one of the unit words of the recency regex:
`seconds?|minutes?|hours?|days?`, case-insensitively. -/
def isUnitWord (u : List Char) : Bool :=
  ciFullEq u ('s' :: 'e' :: 'c' :: 'o' :: 'n' :: 'd' :: []) ||
  ciFullEq u ('s' :: 'e' :: 'c' :: 'o' :: 'n' :: 'd' :: 's' :: []) ||
  ciFullEq u ('m' :: 'i' :: 'n' :: 'u' :: 't' :: 'e' :: []) ||
  ciFullEq u ('m' :: 'i' :: 'n' :: 'u' :: 't' :: 'e' :: 's' :: []) ||
  ciFullEq u ('h' :: 'o' :: 'u' :: 'r' :: []) ||
  ciFullEq u ('h' :: 'o' :: 'u' :: 'r' :: 's' :: []) ||
  ciFullEq u ('d' :: 'a' :: 'y' :: []) ||
  ciFullEq u ('d' :: 'a' :: 'y' :: 's' :: [])

/-- `p` is a full recency phrase: digits, whitespace, a unit word, whitespace,
then a three-character case-insensitive rendering of `ago`.  Exactly the texts
matched in full by `/\d+\s+(seconds?|minutes?|hours?|days?)\s+ago/i`. -/
def IsRecencyPhrase (p : List Char) : Prop :=
  ∃ ds w1 u w2 ag,
    p = ds ++ w1 ++ u ++ w2 ++ ag ∧
    ds ≠ [] ∧ (∀ c ∈ ds, isDigitChar c = true) ∧
    w1 ≠ [] ∧ (∀ c ∈ w1, isSpaceChar c = true) ∧
    isUnitWord u = true ∧
    w2 ≠ [] ∧ (∀ c ∈ w2, isSpaceChar c = true) ∧
    ag.length = 3 ∧ ciStartsWith ag ('a' :: 'g' :: 'o' :: []) = true

theorem optSLen_cons (c : Char) (t : List Char) :
    optSLen (c :: t) = if ciChar c 's' then 1 else 0 := rfl

theorem ciStartsWith_head_false {c : Char} {t : List Char} {l : Char} {ls : List Char}
    (h : ciChar c l = false) : ciStartsWith (c :: t) (l :: ls) = false := by
  simp [ciStartsWith, h]

theorem ciFullEq_head {a : List Char} {l : Char} {ls : List Char}
    (h : ciFullEq a (l :: ls) = true) : ∃ c t, a = c :: t ∧ ciChar c l = true := by
  simp only [ciFullEq, Bool.and_eq_true, beq_iff_eq] at h
  cases a with
  | nil => simp at h
  | cons c t =>
    refine ⟨c, t, rfl, ?_⟩
    have h2 := h.2
    simp only [ciStartsWith, Bool.and_eq_true] at h2
    exact h2.1

theorem ciStartsWith_of_append {l1 : List Char} :
    ∀ {s l2 : List Char}, ciStartsWith s (l1 ++ l2) = true → ciStartsWith s l1 = true := by
  induction l1 with
  | nil => intro s l2 _; rw [ciStartsWith_nil]
  | cons l ls ih =>
    intro s l2 h
    cases s with
    | nil => simp [ciStartsWith] at h
    | cons c t =>
      simp only [List.cons_append, ciStartsWith, Bool.and_eq_true] at h ⊢
      exact ⟨h.1, ih h.2⟩

theorem drop_append_len {a b : List Char} {n : Nat} (h : n = a.length) :
    (a ++ b).drop n = b := by
  subst h; exact List.drop_left a b

/-! Point evaluations of `matchTimeAgo`, phrased through the values of the
four greedy munches. -/

theorem matchTimeAgo_none_d {cs : List Char} (h : spanLen isDigitChar cs = 0) :
    matchTimeAgo cs = none := by
  simp only [matchTimeAgo, h]
  simp

theorem matchTimeAgo_none_w1 {cs : List Char} {d : Nat}
    (hd : spanLen isDigitChar cs = d) (hd0 : d ≠ 0)
    (hw1 : spanLen isSpaceChar (cs.drop d) = 0) :
    matchTimeAgo cs = none := by
  simp only [matchTimeAgo, hd, hw1]
  simp [hd0]

theorem matchTimeAgo_none_u {cs : List Char} {d w1 : Nat}
    (hd : spanLen isDigitChar cs = d) (hd0 : d ≠ 0)
    (hw1 : spanLen isSpaceChar (cs.drop d) = w1) (hw10 : w1 ≠ 0)
    (hu : matchUnitLen ((cs.drop d).drop w1) = none) :
    matchTimeAgo cs = none := by
  simp only [matchTimeAgo, hd, hw1, hu]
  simp [hd0, hw10]

theorem matchTimeAgo_none_w2 {cs : List Char} {d w1 u : Nat}
    (hd : spanLen isDigitChar cs = d) (hd0 : d ≠ 0)
    (hw1 : spanLen isSpaceChar (cs.drop d) = w1) (hw10 : w1 ≠ 0)
    (hu : matchUnitLen ((cs.drop d).drop w1) = some u)
    (hw2 : spanLen isSpaceChar (((cs.drop d).drop w1).drop u) = 0) :
    matchTimeAgo cs = none := by
  simp only [matchTimeAgo, hd, hw1, hu, hw2]
  simp [hd0, hw10]

theorem matchTimeAgo_none_ago {cs : List Char} {d w1 u w2 : Nat}
    (hd : spanLen isDigitChar cs = d) (hd0 : d ≠ 0)
    (hw1 : spanLen isSpaceChar (cs.drop d) = w1) (hw10 : w1 ≠ 0)
    (hu : matchUnitLen ((cs.drop d).drop w1) = some u)
    (hw2 : spanLen isSpaceChar (((cs.drop d).drop w1).drop u) = w2) (hw20 : w2 ≠ 0)
    (hago : ciStartsWith ((((cs.drop d).drop w1).drop u).drop w2)
      ('a' :: 'g' :: 'o' :: []) = false) :
    matchTimeAgo cs = none := by
  simp only [matchTimeAgo, hd, hw1, hu, hw2, hago]
  simp [hd0, hw10, hw20]

theorem matchTimeAgo_some {cs : List Char} {d w1 u w2 : Nat}
    (hd : spanLen isDigitChar cs = d) (hd0 : d ≠ 0)
    (hw1 : spanLen isSpaceChar (cs.drop d) = w1) (hw10 : w1 ≠ 0)
    (hu : matchUnitLen ((cs.drop d).drop w1) = some u)
    (hw2 : spanLen isSpaceChar (((cs.drop d).drop w1).drop u) = w2) (hw20 : w2 ≠ 0)
    (hago : ciStartsWith ((((cs.drop d).drop w1).drop u).drop w2)
      ('a' :: 'g' :: 'o' :: []) = true) :
    matchTimeAgo cs = some (d + w1 + u + w2 + 3) := by
  simp only [matchTimeAgo, hd, hw1, hu, hw2, hago]
  simp [hd0, hw10, hw20]

/-! Consequences of a digit-headed list for the individual munches. -/

theorem headDigit_space0 {f : List Char} (h : HeadDigit f) :
    spanLen isSpaceChar f = 0 := by
  obtain ⟨c, t, he, hd⟩ := h
  subst he
  exact spanLen_head_false (digit_not_space hd)

theorem headDigit_optS0 {f : List Char} (h : HeadDigit f) : optSLen f = 0 := by
  obtain ⟨c, t, he, hd⟩ := h
  subst he
  rw [optSLen_cons, digit_ci_letter_false hd (by decide) (by decide)]
  simp

theorem headDigit_unit_none {f : List Char} (h : HeadDigit f) :
    matchUnitLen f = none := by
  obtain ⟨c, t, he, hd⟩ := h
  subst he
  rw [matchUnitLen,
    ciStartsWith_head_false (digit_ci_letter_false hd (by decide) (by decide)),
    ciStartsWith_head_false (digit_ci_letter_false hd (by decide) (by decide)),
    ciStartsWith_head_false (digit_ci_letter_false hd (by decide) (by decide)),
    ciStartsWith_head_false (digit_ci_letter_false hd (by decide) (by decide))]
  simp

theorem headDigit_ago_false {f : List Char} (h : HeadDigit f) :
    ciStartsWith f ('a' :: 'g' :: 'o' :: []) = false := by
  obtain ⟨c, t, he, hd⟩ := h
  subst he
  exact ciStartsWith_head_false (digit_ci_letter_false hd (by decide) (by decide))

theorem headDigit_append {p : List Char} (h : HeadDigit p) (x : List Char) :
    HeadDigit (p ++ x) := by
  obtain ⟨c, t, he, hd⟩ := h
  subst he
  exact ⟨c, t ++ x, rfl, hd⟩

theorem phrase_headDigit {p : List Char} (h : IsRecencyPhrase p) : HeadDigit p := by
  obtain ⟨ds, w1, u, w2, ag, he, hds, hdsd, _, _, _, _, _, _, _⟩ := h
  subst he
  cases ds with
  | nil => exact absurd rfl hds
  | cons c t =>
    exact ⟨c, t ++ w1 ++ u ++ w2 ++ ag, by simp, hdsd c (List.mem_cons_self _ _)⟩

/-- An exactly-matching unit word (no trailing `s`): the branch for `lit`
fires and the optional `s` is declined by the following whitespace. -/
theorem unit_exact {u l : List Char} {n : Nat} (h : ciFullEq u l = true)
    (hn : l.length = n) {sp : Char} (hsp : isSpaceChar sp = true) (rest : List Char) :
    ciStartsWith (u ++ sp :: rest) l = true ∧
    optSLen ((u ++ sp :: rest).drop n) = 0 ∧ u.length = n := by
  simp only [ciFullEq, Bool.and_eq_true, beq_iff_eq] at h
  have hul : u.length = n := h.1.trans hn
  refine ⟨ciStartsWith_append_of h.2 _, ?_, hul⟩
  rw [drop_append_len hul.symm, optSLen_cons,
    space_ci_letter_false hsp (by decide) (by decide)]
  simp

/-- A unit word with the trailing `s`: the branch for `lit` fires and the
optional `s` is taken. -/
theorem unit_s_var {u l : List Char} {n : Nat}
    (h : ciFullEq u (l ++ ('s' :: [])) = true) (hn : l.length = n) (x : List Char) :
    ciStartsWith (u ++ x) l = true ∧
    optSLen ((u ++ x).drop n) = 1 ∧ u.length = n + 1 := by
  simp only [ciFullEq, Bool.and_eq_true, beq_iff_eq] at h
  have hul : u.length = n + 1 := by
    have := h.1
    simp only [List.length_append, List.length_cons, List.length_nil] at this
    omega
  have hab : u.take n ++ u.drop n = u := List.take_append_drop n u
  have ha : (u.take n).length = n := by
    rw [List.length_take]
    omega
  have hsw : ciStartsWith (u.take n ++ u.drop n) (l ++ ('s' :: [])) = true := by
    rw [hab]; exact h.2
  have hsplit := ciStartsWith_append_split (by rw [ha, hn]) hsw
  obtain ⟨c, t, hct⟩ : ∃ c t, u.drop n = c :: t := by
    cases hdrop : u.drop n with
    | nil =>
      exfalso
      have h2 := hsplit.2
      rw [hdrop] at h2
      simp [ciStartsWith] at h2
    | cons c t => exact ⟨c, t, rfl⟩
  have hcs : ciChar c 's' = true := by
    have h2 := hsplit.2
    rw [hct] at h2
    simp only [ciStartsWith, Bool.and_eq_true] at h2
    exact h2.1
  have hux : u ++ x = u.take n ++ (u.drop n ++ x) := by
    rw [← List.append_assoc, hab]
  refine ⟨?_, ?_, hul⟩
  · rw [hux]
    exact ciStartsWith_append_of hsplit.1 _
  · rw [hux, drop_append_len ha.symm, hct, List.cons_append, optSLen_cons, hcs]
    simp

/-- At a unit word followed by whitespace, `matchUnitLen` consumes exactly the
unit word: its own branch fires (earlier branches are excluded by the first
letter) and the optional `s` stops at the word boundary. -/
theorem ciFullEq_head_excl {a : List Char} {l : Char} {ls : List Char}
    (h : ciFullEq a (l :: ls) = true) {m : Char} (hne : l.toNat ≠ m.toNat)
    (ms x : List Char) : ciStartsWith (a ++ x) (m :: ms) = false := by
  obtain ⟨c, t, hct, hcl⟩ := ciFullEq_head h
  rw [hct, List.cons_append]
  exact ciStartsWith_head_false (ciChar_excl hcl hne)

theorem matchUnitLen_unit {u : List Char} (hu : isUnitWord u = true)
    {sp : Char} (hsp : isSpaceChar sp = true) (rest : List Char) :
    matchUnitLen (u ++ sp :: rest) = some u.length := by
  have hsp0 : optSLen (sp :: rest) = 0 := by
    rw [optSLen_cons, space_ci_letter_false hsp (by decide) (by decide)]
    simp
  simp only [isUnitWord, Bool.or_eq_true] at hu
  rcases hu with ((((((h | h) | h) | h) | h) | h) | h) | h
  · obtain ⟨hf, ho, hl⟩ := unit_exact (n := 6) h rfl hsp rest
    simp [matchUnitLen, hf, ho, hl, hsp0]
  · obtain ⟨hf, ho, hl⟩ :=
      unit_s_var (l := 's' :: 'e' :: 'c' :: 'o' :: 'n' :: 'd' :: []) (n := 6) h rfl
        (sp :: rest)
    simp [matchUnitLen, hf, ho, hl, hsp0]
  · have hne1 := ciFullEq_head_excl h (m := 's') (by decide)
      ('e' :: 'c' :: 'o' :: 'n' :: 'd' :: []) (sp :: rest)
    obtain ⟨hf, ho, hl⟩ := unit_exact (n := 6) h rfl hsp rest
    simp [matchUnitLen, hne1, hf, ho, hl, hsp0]
  · have hne1 := ciFullEq_head_excl h (m := 's') (by decide)
      ('e' :: 'c' :: 'o' :: 'n' :: 'd' :: []) (sp :: rest)
    obtain ⟨hf, ho, hl⟩ :=
      unit_s_var (l := 'm' :: 'i' :: 'n' :: 'u' :: 't' :: 'e' :: []) (n := 6) h rfl
        (sp :: rest)
    simp [matchUnitLen, hne1, hf, ho, hl, hsp0]
  · have hne1 := ciFullEq_head_excl h (m := 's') (by decide)
      ('e' :: 'c' :: 'o' :: 'n' :: 'd' :: []) (sp :: rest)
    have hne2 := ciFullEq_head_excl h (m := 'm') (by decide)
      ('i' :: 'n' :: 'u' :: 't' :: 'e' :: []) (sp :: rest)
    obtain ⟨hf, ho, hl⟩ := unit_exact (n := 4) h rfl hsp rest
    simp [matchUnitLen, hne1, hne2, hf, ho, hl, hsp0]
  · have hne1 := ciFullEq_head_excl h (m := 's') (by decide)
      ('e' :: 'c' :: 'o' :: 'n' :: 'd' :: []) (sp :: rest)
    have hne2 := ciFullEq_head_excl h (m := 'm') (by decide)
      ('i' :: 'n' :: 'u' :: 't' :: 'e' :: []) (sp :: rest)
    obtain ⟨hf, ho, hl⟩ :=
      unit_s_var (l := 'h' :: 'o' :: 'u' :: 'r' :: []) (n := 4) h rfl (sp :: rest)
    simp [matchUnitLen, hne1, hne2, hf, ho, hl, hsp0]
  · have hne1 := ciFullEq_head_excl h (m := 's') (by decide)
      ('e' :: 'c' :: 'o' :: 'n' :: 'd' :: []) (sp :: rest)
    have hne2 := ciFullEq_head_excl h (m := 'm') (by decide)
      ('i' :: 'n' :: 'u' :: 't' :: 'e' :: []) (sp :: rest)
    have hne3 := ciFullEq_head_excl h (m := 'h') (by decide)
      ('o' :: 'u' :: 'r' :: []) (sp :: rest)
    obtain ⟨hf, ho, hl⟩ := unit_exact (n := 3) h rfl hsp rest
    simp [matchUnitLen, hne1, hne2, hne3, hf, ho, hl, hsp0]
  · have hne1 := ciFullEq_head_excl h (m := 's') (by decide)
      ('e' :: 'c' :: 'o' :: 'n' :: 'd' :: []) (sp :: rest)
    have hne2 := ciFullEq_head_excl h (m := 'm') (by decide)
      ('i' :: 'n' :: 'u' :: 't' :: 'e' :: []) (sp :: rest)
    have hne3 := ciFullEq_head_excl h (m := 'h') (by decide)
      ('o' :: 'u' :: 'r' :: []) (sp :: rest)
    obtain ⟨hf, ho, hl⟩ :=
      unit_s_var (l := 'd' :: 'a' :: 'y' :: []) (n := 3) h rfl (sp :: rest)
    simp [matchUnitLen, hne1, hne2, hne3, hf, ho, hl, hsp0]

theorem unitWord_head_not_space {u : List Char} (hu : isUnitWord u = true) :
    ∃ c t, u = c :: t ∧ isSpaceChar c = false := by
  simp only [isUnitWord, Bool.or_eq_true] at hu
  rcases hu with ((((((h | h) | h) | h) | h) | h) | h) | h <;>
    obtain ⟨c, t, hct, hcl⟩ := ciFullEq_head h <;>
    exact ⟨c, t, hct, ci_letter_not_space hcl (by decide) (by decide)⟩

/-- A full recency-phrase match: any run of digits immediately before the
phrase merges into its `\\d+`, and the match consumes those digits plus the
phrase exactly, whatever follows. -/
theorem matchTimeAgo_digits_phrase {ds0 : List Char}
    (hds0 : ∀ c ∈ ds0, isDigitChar c = true) {p : List Char} (hp : IsRecencyPhrase p)
    (post : List Char) :
    matchTimeAgo (ds0 ++ p ++ post) = some (ds0.length + p.length) := by
  obtain ⟨ds, w1, u, w2, ag, he, hds, hdsd, hw1n, hw1s, huw, hw2n, hw2s, hagl, hagsw⟩ := hp
  obtain ⟨uc, ut, hue, hucs⟩ := unitWord_head_not_space huw
  obtain ⟨w1c, w1t, hw1e⟩ := List.exists_cons_of_ne_nil hw1n
  obtain ⟨w2c, w2t, hw2e⟩ := List.exists_cons_of_ne_nil hw2n
  have hagn : ag ≠ [] := by
    intro hnil
    rw [hnil] at hagl
    simp at hagl
  obtain ⟨ac, agt, hage⟩ := List.exists_cons_of_ne_nil hagn
  have hac : ciChar ac 'a' = true := by
    rw [hage] at hagsw
    simp only [ciStartsWith, Bool.and_eq_true] at hagsw
    exact hagsw.1
  have hre : ds0 ++ p ++ post =
      (ds0 ++ ds) ++ (w1 ++ (u ++ (w2 ++ (ag ++ post)))) := by
    rw [he]
    simp [List.append_assoc]
  have hds_pos : 0 < ds.length := List.length_pos.mpr hds
  have hA0 : (ds0 ++ ds).length ≠ 0 := by
    rw [List.length_append]
    omega
  have hall : ∀ c ∈ ds0 ++ ds, isDigitChar c = true := by
    intro c hc
    rcases List.mem_append.mp hc with hc | hc
    · exact hds0 c hc
    · exact hdsd c hc
  have hw1chead : isSpaceChar w1c = true := hw1s w1c (by rw [hw1e]; exact List.mem_cons_self _ _)
  have hw2chead : isSpaceChar w2c = true := hw2s w2c (by rw [hw2e]; exact List.mem_cons_self _ _)
  have hd : spanLen isDigitChar ((ds0 ++ ds) ++ (w1 ++ (u ++ (w2 ++ (ag ++ post))))) =
      (ds0 ++ ds).length := by
    rw [spanLen_append_all hall, hw1e, List.cons_append,
      spanLen_head_false (space_not_digit hw1chead)]
    omega
  have hdrop1 : ((ds0 ++ ds) ++ (w1 ++ (u ++ (w2 ++ (ag ++ post))))).drop
      (ds0 ++ ds).length = w1 ++ (u ++ (w2 ++ (ag ++ post))) := drop_append_len rfl
  have hw1v : spanLen isSpaceChar (w1 ++ (u ++ (w2 ++ (ag ++ post)))) = w1.length := by
    rw [spanLen_append_all hw1s, hue, List.cons_append, spanLen_head_false hucs]
    omega
  have hw10 : w1.length ≠ 0 := by
    rw [hw1e]
    simp
  have hdrop2 : (w1 ++ (u ++ (w2 ++ (ag ++ post)))).drop w1.length =
      u ++ (w2 ++ (ag ++ post)) := drop_append_len rfl
  have huv : matchUnitLen (u ++ (w2 ++ (ag ++ post))) = some u.length := by
    rw [hw2e, List.cons_append]
    exact matchUnitLen_unit huw hw2chead _
  have hdrop3 : (u ++ (w2 ++ (ag ++ post))).drop u.length = w2 ++ (ag ++ post) :=
    drop_append_len rfl
  have hw2v : spanLen isSpaceChar (w2 ++ (ag ++ post)) = w2.length := by
    rw [spanLen_append_all hw2s, hage, List.cons_append,
      spanLen_head_false (ci_letter_not_space hac (by decide) (by decide))]
    omega
  have hw20 : w2.length ≠ 0 := by
    rw [hw2e]
    simp
  have hdrop4 : (w2 ++ (ag ++ post)).drop w2.length = ag ++ post := drop_append_len rfl
  have hago : ciStartsWith (ag ++ post) ('a' :: 'g' :: 'o' :: []) = true :=
    ciStartsWith_append_of hagsw post
  rw [hre, matchTimeAgo_some hd hA0 (by rw [hdrop1]; exact hw1v) hw10
    (by rw [hdrop1, hdrop2]; exact huv)
    (by rw [hdrop1, hdrop2, hdrop3]; exact hw2v) hw20
    (by rw [hdrop1, hdrop2, hdrop3, hdrop4]; exact hago)]
  rw [he]
  simp only [Option.some.injEq, List.length_append, hagl]
  omega

/-- The optional trailing `s` look-ahead at offset `k` inside `s ++ f` does
not depend on a digit-headed suffix `f`, and keeps the consumed length inside
`s`. -/
theorem optS_boundary {fa fb : List Char} (ha : HeadDigit fa) (hb : HeadDigit fb)
    {s : List Char} {k : Nat} (hk : k ≤ s.length) :
    optSLen ((s ++ fa).drop k) = optSLen ((s ++ fb).drop k) ∧
      k + optSLen ((s ++ fa).drop k) ≤ s.length := by
  have hda : (s ++ fa).drop k = s.drop k ++ fa := by
    rw [List.drop_append_eq_append_drop]
    have h0 : k - s.length = 0 := by omega
    rw [h0, List.drop_zero]
  have hdb : (s ++ fb).drop k = s.drop k ++ fb := by
    rw [List.drop_append_eq_append_drop]
    have h0 : k - s.length = 0 := by omega
    rw [h0, List.drop_zero]
  rcases Nat.lt_or_ge k s.length with hlt | hge
  · have hne : s.drop k ≠ [] := by
      intro hnil
      have := congrArg List.length hnil
      rw [List.length_drop] at this
      simp at this
      omega
    obtain ⟨c, t, hct⟩ := List.exists_cons_of_ne_nil hne
    rw [hda, hdb, hct, List.cons_append, List.cons_append, optSLen_cons, optSLen_cons]
    refine ⟨rfl, ?_⟩
    split <;> omega
  · have hk' : k = s.length := by omega
    have hnil : s.drop k = [] := by
      rw [hk']
      exact List.drop_length s
    rw [hda, hdb, hnil, List.nil_append, List.nil_append, headDigit_optS0 ha,
      headDigit_optS0 hb]
    omega

/-- `matchUnitLen` sitting before a digit-headed suffix: the result is the
same for any two digit-headed suffixes, and a successful match stays inside
the prefix. -/
theorem matchUnitLen_boundary {fa fb : List Char} (ha : HeadDigit fa) (hb : HeadDigit fb)
    (s : List Char) :
    matchUnitLen (s ++ fa) = matchUnitLen (s ++ fb) ∧
      ∀ v, matchUnitLen (s ++ fa) = some v → v ≤ s.length := by
  have e1 : ciStartsWith (s ++ fa) ('s' :: 'e' :: 'c' :: 'o' :: 'n' :: 'd' :: []) =
      ciStartsWith (s ++ fb) ('s' :: 'e' :: 'c' :: 'o' :: 'n' :: 'd' :: []) :=
    ciStartsWith_boundary_indep (by decide) s fa fb ha hb
  have e2 : ciStartsWith (s ++ fa) ('m' :: 'i' :: 'n' :: 'u' :: 't' :: 'e' :: []) =
      ciStartsWith (s ++ fb) ('m' :: 'i' :: 'n' :: 'u' :: 't' :: 'e' :: []) :=
    ciStartsWith_boundary_indep (by decide) s fa fb ha hb
  have e3 : ciStartsWith (s ++ fa) ('h' :: 'o' :: 'u' :: 'r' :: []) =
      ciStartsWith (s ++ fb) ('h' :: 'o' :: 'u' :: 'r' :: []) :=
    ciStartsWith_boundary_indep (by decide) s fa fb ha hb
  have e4 : ciStartsWith (s ++ fa) ('d' :: 'a' :: 'y' :: []) =
      ciStartsWith (s ++ fb) ('d' :: 'a' :: 'y' :: []) :=
    ciStartsWith_boundary_indep (by decide) s fa fb ha hb
  cases hc1 : ciStartsWith (s ++ fa) ('s' :: 'e' :: 'c' :: 'o' :: 'n' :: 'd' :: []) with
  | true =>
    have hc1b : ciStartsWith (s ++ fb) ('s' :: 'e' :: 'c' :: 'o' :: 'n' :: 'd' :: []) =
        true := by rw [← e1]; exact hc1
    have hk : 6 ≤ s.length := by
      simpa using ciStartsWith_boundary_length (by decide) s fa ha hc1
    obtain ⟨ho, hbnd⟩ := optS_boundary ha hb (k := 6) hk
    have va : matchUnitLen (s ++ fa) = some (6 + optSLen ((s ++ fa).drop 6)) := by
      unfold matchUnitLen
      rw [if_pos hc1]
    have vb : matchUnitLen (s ++ fb) = some (6 + optSLen ((s ++ fb).drop 6)) := by
      unfold matchUnitLen
      rw [if_pos hc1b]
    refine ⟨by rw [va, vb, ho], ?_⟩
    intro v hv
    rw [va] at hv
    simp only [Option.some.injEq] at hv
    omega
  | false =>
    have hc1b : ciStartsWith (s ++ fb) ('s' :: 'e' :: 'c' :: 'o' :: 'n' :: 'd' :: []) =
        false := by rw [← e1]; exact hc1
    cases hc2 : ciStartsWith (s ++ fa) ('m' :: 'i' :: 'n' :: 'u' :: 't' :: 'e' :: []) with
    | true =>
      have hc2b : ciStartsWith (s ++ fb) ('m' :: 'i' :: 'n' :: 'u' :: 't' :: 'e' :: []) =
          true := by rw [← e2]; exact hc2
      have hk : 6 ≤ s.length := by
        simpa using ciStartsWith_boundary_length (by decide) s fa ha hc2
      obtain ⟨ho, hbnd⟩ := optS_boundary ha hb (k := 6) hk
      have va : matchUnitLen (s ++ fa) = some (6 + optSLen ((s ++ fa).drop 6)) := by
        unfold matchUnitLen
        rw [if_neg (by simp [hc1]), if_pos hc2]
      have vb : matchUnitLen (s ++ fb) = some (6 + optSLen ((s ++ fb).drop 6)) := by
        unfold matchUnitLen
        rw [if_neg (by simp [hc1b]), if_pos hc2b]
      refine ⟨by rw [va, vb, ho], ?_⟩
      intro v hv
      rw [va] at hv
      simp only [Option.some.injEq] at hv
      omega
    | false =>
      have hc2b : ciStartsWith (s ++ fb) ('m' :: 'i' :: 'n' :: 'u' :: 't' :: 'e' :: []) =
          false := by rw [← e2]; exact hc2
      cases hc3 : ciStartsWith (s ++ fa) ('h' :: 'o' :: 'u' :: 'r' :: []) with
      | true =>
        have hc3b : ciStartsWith (s ++ fb) ('h' :: 'o' :: 'u' :: 'r' :: []) = true := by
          rw [← e3]; exact hc3
        have hk : 4 ≤ s.length := by
          simpa using ciStartsWith_boundary_length (by decide) s fa ha hc3
        obtain ⟨ho, hbnd⟩ := optS_boundary ha hb (k := 4) hk
        have va : matchUnitLen (s ++ fa) = some (4 + optSLen ((s ++ fa).drop 4)) := by
          unfold matchUnitLen
          rw [if_neg (by simp [hc1]), if_neg (by simp [hc2]), if_pos hc3]
        have vb : matchUnitLen (s ++ fb) = some (4 + optSLen ((s ++ fb).drop 4)) := by
          unfold matchUnitLen
          rw [if_neg (by simp [hc1b]), if_neg (by simp [hc2b]), if_pos hc3b]
        refine ⟨by rw [va, vb, ho], ?_⟩
        intro v hv
        rw [va] at hv
        simp only [Option.some.injEq] at hv
        omega
      | false =>
        have hc3b : ciStartsWith (s ++ fb) ('h' :: 'o' :: 'u' :: 'r' :: []) = false := by
          rw [← e3]; exact hc3
        cases hc4 : ciStartsWith (s ++ fa) ('d' :: 'a' :: 'y' :: []) with
        | true =>
          have hc4b : ciStartsWith (s ++ fb) ('d' :: 'a' :: 'y' :: []) = true := by
            rw [← e4]; exact hc4
          have hk : 3 ≤ s.length := by
            simpa using ciStartsWith_boundary_length (by decide) s fa ha hc4
          obtain ⟨ho, hbnd⟩ := optS_boundary ha hb (k := 3) hk
          have va : matchUnitLen (s ++ fa) = some (3 + optSLen ((s ++ fa).drop 3)) := by
            unfold matchUnitLen
            rw [if_neg (by simp [hc1]), if_neg (by simp [hc2]), if_neg (by simp [hc3]),
              if_pos hc4]
          have vb : matchUnitLen (s ++ fb) = some (3 + optSLen ((s ++ fb).drop 3)) := by
            unfold matchUnitLen
            rw [if_neg (by simp [hc1b]), if_neg (by simp [hc2b]), if_neg (by simp [hc3b]),
              if_pos hc4b]
          refine ⟨by rw [va, vb, ho], ?_⟩
          intro v hv
          rw [va] at hv
          simp only [Option.some.injEq] at hv
          omega
        | false =>
          have hc4b : ciStartsWith (s ++ fb) ('d' :: 'a' :: 'y' :: []) = false := by
            rw [← e4]; exact hc4
          have va : matchUnitLen (s ++ fa) = none := by
            unfold matchUnitLen
            rw [if_neg (by simp [hc1]), if_neg (by simp [hc2]), if_neg (by simp [hc3]),
              if_neg (by simp [hc4])]
          have vb : matchUnitLen (s ++ fb) = none := by
            unfold matchUnitLen
            rw [if_neg (by simp [hc1b]), if_neg (by simp [hc2b]), if_neg (by simp [hc3b]),
              if_neg (by simp [hc4b])]
          refine ⟨by rw [va, vb], ?_⟩
          intro v hv
          rw [va] at hv
          exact absurd hv (by simp)

theorem drop_append_small {a f : List Char} {n : Nat} (h : n ≤ a.length) :
    (a ++ f).drop n = a.drop n ++ f := by
  rw [List.drop_append_eq_append_drop]
  have h0 : n - a.length = 0 := by omega
  rw [h0, List.drop_zero]

/-- Scanning one position inside the prefix `s`, with a recency phrase and
arbitrary text behind it: either no match on both sides, or a common match
contained in `s`, or the match swallows all of `s` (a run of digits) plus the
whole phrase. -/
theorem matchTimeAgo_sim {p1 p2 : List Char} (h1 : IsRecencyPhrase p1)
    (h2 : IsRecencyPhrase p2) (post s : List Char) :
    (matchTimeAgo (s ++ (p1 ++ post)) = none ∧
      matchTimeAgo (s ++ (p2 ++ post)) = none) ∨
    (∃ n, 1 ≤ n ∧ n ≤ s.length ∧
      matchTimeAgo (s ++ (p1 ++ post)) = some n ∧
      matchTimeAgo (s ++ (p2 ++ post)) = some n) ∨
    (matchTimeAgo (s ++ (p1 ++ post)) = some (s.length + p1.length) ∧
      matchTimeAgo (s ++ (p2 ++ post)) = some (s.length + p2.length)) := by
  have hfa : HeadDigit (p1 ++ post) := headDigit_append (phrase_headDigit h1) post
  have hfb : HeadDigit (p2 ++ post) := headDigit_append (phrase_headDigit h2) post
  by_cases hall : ∀ c ∈ s, isDigitChar c = true
  · refine Or.inr (Or.inr ⟨?_, ?_⟩)
    · rw [← List.append_assoc]
      exact matchTimeAgo_digits_phrase hall h1 post
    · rw [← List.append_assoc]
      exact matchTimeAgo_digits_phrase hall h2 post
  · push_neg at hall
    obtain ⟨cw, hcwm, hcwd⟩ := hall
    have hdne : spanLen isDigitChar s ≠ s.length := by
      intro h
      exact hcwd (spanLen_eq_length_all h cw hcwm)
    have hdlt : spanLen isDigitChar s < s.length :=
      lt_of_le_of_ne (spanLen_le_length _ _) hdne
    have hda : spanLen isDigitChar (s ++ (p1 ++ post)) = spanLen isDigitChar s :=
      spanLen_append_of_lt hdlt _
    have hdb : spanLen isDigitChar (s ++ (p2 ++ post)) = spanLen isDigitChar s :=
      spanLen_append_of_lt hdlt _
    by_cases hd0 : spanLen isDigitChar s = 0
    · exact Or.inl ⟨matchTimeAgo_none_d (by rw [hda, hd0]),
        matchTimeAgo_none_d (by rw [hdb, hd0])⟩
    have hdr1a : (s ++ (p1 ++ post)).drop (spanLen isDigitChar s) =
        s.drop (spanLen isDigitChar s) ++ (p1 ++ post) :=
      drop_append_small (Nat.le_of_lt hdlt)
    have hdr1b : (s ++ (p2 ++ post)).drop (spanLen isDigitChar s) =
        s.drop (spanLen isDigitChar s) ++ (p2 ++ post) :=
      drop_append_small (Nat.le_of_lt hdlt)
    have hs1len : (s.drop (spanLen isDigitChar s)).length =
        s.length - spanLen isDigitChar s := List.length_drop _ _
    by_cases hall1 : ∀ c ∈ s.drop (spanLen isDigitChar s), isSpaceChar c = true
    · -- all spaces up to the phrase: the unit word is missing
      have hsp1 : ∀ f, HeadDigit f →
          spanLen isSpaceChar (s.drop (spanLen isDigitChar s) ++ f) =
            (s.drop (spanLen isDigitChar s)).length := by
        intro f hf
        rw [spanLen_append_all hall1, headDigit_space0 hf]
        omega
      have hw1pos : (s.drop (spanLen isDigitChar s)).length ≠ 0 := by
        rw [hs1len]
        omega
      have hdru : ∀ f : List Char, (s.drop (spanLen isDigitChar s) ++ f).drop
          (s.drop (spanLen isDigitChar s)).length = f := fun f => List.drop_left _ _
      refine Or.inl ⟨matchTimeAgo_none_u hda hd0 ?_ hw1pos ?_,
        matchTimeAgo_none_u hdb hd0 ?_ hw1pos ?_⟩
      · rw [hdr1a]
        exact hsp1 _ hfa
      · rw [hdr1a, hdru]
        exact headDigit_unit_none hfa
      · rw [hdr1b]
        exact hsp1 _ hfb
      · rw [hdr1b, hdru]
        exact headDigit_unit_none hfb
    · push_neg at hall1
      obtain ⟨c1, hc1m, hc1s⟩ := hall1
      have hw1ne : spanLen isSpaceChar (s.drop (spanLen isDigitChar s)) ≠
          (s.drop (spanLen isDigitChar s)).length := by
        intro h
        exact hc1s (spanLen_eq_length_all h c1 hc1m)
      have hw1lt : spanLen isSpaceChar (s.drop (spanLen isDigitChar s)) <
          (s.drop (spanLen isDigitChar s)).length :=
        lt_of_le_of_ne (spanLen_le_length _ _) hw1ne
      have hw1a : spanLen isSpaceChar (s.drop (spanLen isDigitChar s) ++ (p1 ++ post)) =
          spanLen isSpaceChar (s.drop (spanLen isDigitChar s)) :=
        spanLen_append_of_lt hw1lt _
      have hw1b : spanLen isSpaceChar (s.drop (spanLen isDigitChar s) ++ (p2 ++ post)) =
          spanLen isSpaceChar (s.drop (spanLen isDigitChar s)) :=
        spanLen_append_of_lt hw1lt _
      by_cases hw10 : spanLen isSpaceChar (s.drop (spanLen isDigitChar s)) = 0
      · exact Or.inl ⟨matchTimeAgo_none_w1 hda hd0 (by rw [hdr1a, hw1a, hw10]),
          matchTimeAgo_none_w1 hdb hd0 (by rw [hdr1b, hw1b, hw10])⟩
      have hdr2a : (s.drop (spanLen isDigitChar s) ++ (p1 ++ post)).drop
          (spanLen isSpaceChar (s.drop (spanLen isDigitChar s))) =
          (s.drop (spanLen isDigitChar s)).drop
            (spanLen isSpaceChar (s.drop (spanLen isDigitChar s))) ++ (p1 ++ post) :=
        drop_append_small (Nat.le_of_lt hw1lt)
      have hdr2b : (s.drop (spanLen isDigitChar s) ++ (p2 ++ post)).drop
          (spanLen isSpaceChar (s.drop (spanLen isDigitChar s))) =
          (s.drop (spanLen isDigitChar s)).drop
            (spanLen isSpaceChar (s.drop (spanLen isDigitChar s))) ++ (p2 ++ post) :=
        drop_append_small (Nat.le_of_lt hw1lt)
      obtain ⟨humeq, humbnd⟩ := matchUnitLen_boundary hfa hfb
        ((s.drop (spanLen isDigitChar s)).drop
          (spanLen isSpaceChar (s.drop (spanLen isDigitChar s))))
      cases hmu : matchUnitLen ((s.drop (spanLen isDigitChar s)).drop
          (spanLen isSpaceChar (s.drop (spanLen isDigitChar s))) ++ (p1 ++ post)) with
      | none =>
        refine Or.inl ⟨matchTimeAgo_none_u hda hd0 (by rw [hdr1a]; exact hw1a) hw10 ?_,
          matchTimeAgo_none_u hdb hd0 (by rw [hdr1b]; exact hw1b) hw10 ?_⟩
        · rw [hdr1a, hdr2a]
          exact hmu
        · rw [hdr1b, hdr2b, ← humeq]
          exact hmu
      | some uv =>
        have hmub : matchUnitLen ((s.drop (spanLen isDigitChar s)).drop
            (spanLen isSpaceChar (s.drop (spanLen isDigitChar s))) ++ (p2 ++ post)) =
            some uv := by
          rw [← humeq]
          exact hmu
        have huvle : uv ≤ ((s.drop (spanLen isDigitChar s)).drop
            (spanLen isSpaceChar (s.drop (spanLen isDigitChar s)))).length :=
          humbnd uv hmu
        have hdr3a : ((s.drop (spanLen isDigitChar s)).drop
            (spanLen isSpaceChar (s.drop (spanLen isDigitChar s))) ++ (p1 ++ post)).drop
            uv = ((s.drop (spanLen isDigitChar s)).drop
              (spanLen isSpaceChar (s.drop (spanLen isDigitChar s)))).drop uv ++
              (p1 ++ post) := drop_append_small huvle
        have hdr3b : ((s.drop (spanLen isDigitChar s)).drop
            (spanLen isSpaceChar (s.drop (spanLen isDigitChar s))) ++ (p2 ++ post)).drop
            uv = ((s.drop (spanLen isDigitChar s)).drop
              (spanLen isSpaceChar (s.drop (spanLen isDigitChar s)))).drop uv ++
              (p2 ++ post) := drop_append_small huvle
        by_cases hs3nil : ((s.drop (spanLen isDigitChar s)).drop
            (spanLen isSpaceChar (s.drop (spanLen isDigitChar s)))).drop uv = []
        · refine Or.inl
            ⟨matchTimeAgo_none_w2 hda hd0 (by rw [hdr1a]; exact hw1a) hw10
              (by rw [hdr1a, hdr2a]; exact hmu) ?_,
            matchTimeAgo_none_w2 hdb hd0 (by rw [hdr1b]; exact hw1b) hw10
              (by rw [hdr1b, hdr2b]; exact hmub) ?_⟩
          · rw [hdr1a, hdr2a, hdr3a, hs3nil, List.nil_append]
            exact headDigit_space0 hfa
          · rw [hdr1b, hdr2b, hdr3b, hs3nil, List.nil_append]
            exact headDigit_space0 hfb
        · by_cases hall3 : ∀ c ∈ ((s.drop (spanLen isDigitChar s)).drop
              (spanLen isSpaceChar (s.drop (spanLen isDigitChar s)))).drop uv,
              isSpaceChar c = true
          · have hw2v : ∀ f, HeadDigit f →
                spanLen isSpaceChar (((s.drop (spanLen isDigitChar s)).drop
                  (spanLen isSpaceChar (s.drop (spanLen isDigitChar s)))).drop uv ++ f) =
                (((s.drop (spanLen isDigitChar s)).drop
                  (spanLen isSpaceChar (s.drop (spanLen isDigitChar s)))).drop uv).length := by
              intro f hf
              rw [spanLen_append_all hall3, headDigit_space0 hf]
              omega
            have hw2pos : (((s.drop (spanLen isDigitChar s)).drop
                (spanLen isSpaceChar (s.drop (spanLen isDigitChar s)))).drop uv).length ≠
                0 := by
              intro h
              exact hs3nil (List.length_eq_zero.mp h)
            have hdrg : ∀ f : List Char,
                ((((s.drop (spanLen isDigitChar s)).drop
                  (spanLen isSpaceChar (s.drop (spanLen isDigitChar s)))).drop uv ++ f)).drop
                ((((s.drop (spanLen isDigitChar s)).drop
                  (spanLen isSpaceChar (s.drop (spanLen isDigitChar s)))).drop uv).length) =
                f := fun f => List.drop_left _ _
            refine Or.inl
              ⟨matchTimeAgo_none_ago hda hd0 (by rw [hdr1a]; exact hw1a) hw10
                (by rw [hdr1a, hdr2a]; exact hmu)
                (by rw [hdr1a, hdr2a, hdr3a]; exact hw2v _ hfa) hw2pos ?_,
              matchTimeAgo_none_ago hdb hd0 (by rw [hdr1b]; exact hw1b) hw10
                (by rw [hdr1b, hdr2b]; exact hmub)
                (by rw [hdr1b, hdr2b, hdr3b]; exact hw2v _ hfb) hw2pos ?_⟩
            · rw [hdr1a, hdr2a, hdr3a, hdrg]
              exact headDigit_ago_false hfa
            · rw [hdr1b, hdr2b, hdr3b, hdrg]
              exact headDigit_ago_false hfb
          · push_neg at hall3
            obtain ⟨c3, hc3m, hc3s⟩ := hall3
            have hw2ne : spanLen isSpaceChar (((s.drop (spanLen isDigitChar s)).drop
                (spanLen isSpaceChar (s.drop (spanLen isDigitChar s)))).drop uv) ≠
                (((s.drop (spanLen isDigitChar s)).drop
                  (spanLen isSpaceChar (s.drop (spanLen isDigitChar s)))).drop uv).length := by
              intro h
              exact hc3s (spanLen_eq_length_all h c3 hc3m)
            have hw2lt : spanLen isSpaceChar (((s.drop (spanLen isDigitChar s)).drop
                (spanLen isSpaceChar (s.drop (spanLen isDigitChar s)))).drop uv) <
                (((s.drop (spanLen isDigitChar s)).drop
                  (spanLen isSpaceChar (s.drop (spanLen isDigitChar s)))).drop uv).length :=
              lt_of_le_of_ne (spanLen_le_length _ _) hw2ne
            have hw2a : spanLen isSpaceChar ((((s.drop (spanLen isDigitChar s)).drop
                (spanLen isSpaceChar (s.drop (spanLen isDigitChar s)))).drop uv) ++
                (p1 ++ post)) = spanLen isSpaceChar (((s.drop (spanLen isDigitChar s)).drop
                (spanLen isSpaceChar (s.drop (spanLen isDigitChar s)))).drop uv) :=
              spanLen_append_of_lt hw2lt _
            have hw2b : spanLen isSpaceChar ((((s.drop (spanLen isDigitChar s)).drop
                (spanLen isSpaceChar (s.drop (spanLen isDigitChar s)))).drop uv) ++
                (p2 ++ post)) = spanLen isSpaceChar (((s.drop (spanLen isDigitChar s)).drop
                (spanLen isSpaceChar (s.drop (spanLen isDigitChar s)))).drop uv) :=
              spanLen_append_of_lt hw2lt _
            by_cases hw20 : spanLen isSpaceChar (((s.drop (spanLen isDigitChar s)).drop
                (spanLen isSpaceChar (s.drop (spanLen isDigitChar s)))).drop uv) = 0
            · exact Or.inl
                ⟨matchTimeAgo_none_w2 hda hd0 (by rw [hdr1a]; exact hw1a) hw10
                  (by rw [hdr1a, hdr2a]; exact hmu)
                  (by rw [hdr1a, hdr2a, hdr3a, hw2a, hw20]),
                matchTimeAgo_none_w2 hdb hd0 (by rw [hdr1b]; exact hw1b) hw10
                  (by rw [hdr1b, hdr2b]; exact hmub)
                  (by rw [hdr1b, hdr2b, hdr3b, hw2b, hw20])⟩
            have hdr4a : ((((s.drop (spanLen isDigitChar s)).drop
                (spanLen isSpaceChar (s.drop (spanLen isDigitChar s)))).drop uv) ++
                (p1 ++ post)).drop (spanLen isSpaceChar
                  (((s.drop (spanLen isDigitChar s)).drop
                    (spanLen isSpaceChar (s.drop (spanLen isDigitChar s)))).drop uv)) =
                ((((s.drop (spanLen isDigitChar s)).drop
                  (spanLen isSpaceChar (s.drop (spanLen isDigitChar s)))).drop uv).drop
                  (spanLen isSpaceChar (((s.drop (spanLen isDigitChar s)).drop
                    (spanLen isSpaceChar (s.drop (spanLen isDigitChar s)))).drop uv))) ++
                (p1 ++ post) := drop_append_small (Nat.le_of_lt hw2lt)
            have hdr4b : ((((s.drop (spanLen isDigitChar s)).drop
                (spanLen isSpaceChar (s.drop (spanLen isDigitChar s)))).drop uv) ++
                (p2 ++ post)).drop (spanLen isSpaceChar
                  (((s.drop (spanLen isDigitChar s)).drop
                    (spanLen isSpaceChar (s.drop (spanLen isDigitChar s)))).drop uv)) =
                ((((s.drop (spanLen isDigitChar s)).drop
                  (spanLen isSpaceChar (s.drop (spanLen isDigitChar s)))).drop uv).drop
                  (spanLen isSpaceChar (((s.drop (spanLen isDigitChar s)).drop
                    (spanLen isSpaceChar (s.drop (spanLen isDigitChar s)))).drop uv))) ++
                (p2 ++ post) := drop_append_small (Nat.le_of_lt hw2lt)
            have hagoeq := ciStartsWith_boundary_indep
              (by decide : ∀ l ∈ ('a' :: 'g' :: 'o' :: []), 97 ≤ l.toNat ∧ l.toNat ≤ 122)
              (((((s.drop (spanLen isDigitChar s)).drop
                (spanLen isSpaceChar (s.drop (spanLen isDigitChar s)))).drop uv).drop
                (spanLen isSpaceChar (((s.drop (spanLen isDigitChar s)).drop
                  (spanLen isSpaceChar (s.drop (spanLen isDigitChar s)))).drop uv))))
              (p1 ++ post) (p2 ++ post) hfa hfb
            cases hago : ciStartsWith
                (((((s.drop (spanLen isDigitChar s)).drop
                  (spanLen isSpaceChar (s.drop (spanLen isDigitChar s)))).drop uv).drop
                  (spanLen isSpaceChar (((s.drop (spanLen isDigitChar s)).drop
                    (spanLen isSpaceChar (s.drop (spanLen isDigitChar s)))).drop uv))) ++
                  (p1 ++ post)) ('a' :: 'g' :: 'o' :: []) with
            | false =>
              refine Or.inl
                ⟨matchTimeAgo_none_ago hda hd0 (by rw [hdr1a]; exact hw1a) hw10
                  (by rw [hdr1a, hdr2a]; exact hmu)
                  (by rw [hdr1a, hdr2a, hdr3a]; exact hw2a) hw20 ?_,
                matchTimeAgo_none_ago hdb hd0 (by rw [hdr1b]; exact hw1b) hw10
                  (by rw [hdr1b, hdr2b]; exact hmub)
                  (by rw [hdr1b, hdr2b, hdr3b]; exact hw2b) hw20 ?_⟩
              · rw [hdr1a, hdr2a, hdr3a, hdr4a]
                exact hago
              · rw [hdr1b, hdr2b, hdr3b, hdr4b, ← hagoeq]
                exact hago
            | true =>
              have hs4len : 3 ≤ ((((s.drop (spanLen isDigitChar s)).drop
                  (spanLen isSpaceChar (s.drop (spanLen isDigitChar s)))).drop uv).drop
                  (spanLen isSpaceChar (((s.drop (spanLen isDigitChar s)).drop
                    (spanLen isSpaceChar (s.drop (spanLen isDigitChar s)))).drop uv))).length := by
                simpa using ciStartsWith_boundary_length
                  (by decide : ∀ l ∈ ('a' :: 'g' :: 'o' :: []),
                    97 ≤ l.toNat ∧ l.toNat ≤ 122) _ _ hfa hago
              refine Or.inr (Or.inl ⟨spanLen isDigitChar s +
                spanLen isSpaceChar (s.drop (spanLen isDigitChar s)) + uv +
                spanLen isSpaceChar (((s.drop (spanLen isDigitChar s)).drop
                  (spanLen isSpaceChar (s.drop (spanLen isDigitChar s)))).drop uv) + 3,
                by omega, ?_, ?_, ?_⟩)
              · have l1 := hs1len
                have l2 : (((s.drop (spanLen isDigitChar s)).drop
                    (spanLen isSpaceChar (s.drop (spanLen isDigitChar s))))).length =
                    (s.drop (spanLen isDigitChar s)).length -
                      spanLen isSpaceChar (s.drop (spanLen isDigitChar s)) :=
                  List.length_drop _ _
                have l3 : ((((s.drop (spanLen isDigitChar s)).drop
                    (spanLen isSpaceChar (s.drop (spanLen isDigitChar s))))).drop uv).length =
                    (((s.drop (spanLen isDigitChar s)).drop
                      (spanLen isSpaceChar (s.drop (spanLen isDigitChar s))))).length - uv :=
                  List.length_drop _ _
                have l4 : (((((s.drop (spanLen isDigitChar s)).drop
                    (spanLen isSpaceChar (s.drop (spanLen isDigitChar s)))).drop uv).drop
                    (spanLen isSpaceChar (((s.drop (spanLen isDigitChar s)).drop
                      (spanLen isSpaceChar (s.drop (spanLen isDigitChar s)))).drop uv)))).length =
                    ((((s.drop (spanLen isDigitChar s)).drop
                      (spanLen isSpaceChar (s.drop (spanLen isDigitChar s)))).drop uv)).length -
                      spanLen isSpaceChar (((s.drop (spanLen isDigitChar s)).drop
                        (spanLen isSpaceChar (s.drop (spanLen isDigitChar s)))).drop uv) :=
                  List.length_drop _ _
                omega
              · exact matchTimeAgo_some hda hd0 (by rw [hdr1a]; exact hw1a) hw10
                  (by rw [hdr1a, hdr2a]; exact hmu)
                  (by rw [hdr1a, hdr2a, hdr3a]; exact hw2a) hw20
                  (by rw [hdr1a, hdr2a, hdr3a, hdr4a]; exact hago)
              · exact matchTimeAgo_some hdb hd0 (by rw [hdr1b]; exact hw1b) hw10
                  (by rw [hdr1b, hdr2b]; exact hmub)
                  (by rw [hdr1b, hdr2b, hdr3b]; exact hw2b) hw20
                  (by rw [hdr1b, hdr2b, hdr3b, hdr4b, ← hagoeq]; exact hago)

/-- The fuel of the step-1 scanner is irrelevant once it covers the input
length (each step consumes at least one character). -/
theorem replaceTimeAgoAux_fuel : ∀ (k f g : Nat) (cs : List Char),
    cs.length ≤ k → cs.length ≤ f → cs.length ≤ g →
    replaceTimeAgoAux f cs = replaceTimeAgoAux g cs := by
  intro k
  induction k with
  | zero =>
    intro f g cs hk _ _
    have hnil : cs = [] := List.length_eq_zero.mp (Nat.le_zero.mp hk)
    subst hnil
    cases f <;> cases g <;> rfl
  | succ k ih =>
    intro f g cs hk hf hg
    cases cs with
    | nil => cases f <;> cases g <;> rfl
    | cons c rest =>
      simp only [List.length_cons] at hk hf hg
      cases f with
      | zero => omega
      | succ f' =>
        cases g with
        | zero => omega
        | succ g' =>
          cases hm : matchTimeAgo (c :: rest) with
          | none =>
            simp only [replaceTimeAgoAux, hm]
            rw [ih f' g' rest (by omega) (by omega) (by omega)]
          | some n =>
            have hn := matchTimeAgo_pos hm
            have hlen : ((c :: rest).drop n).length = rest.length + 1 - n := by
              rw [List.length_drop]
              simp
            simp only [replaceTimeAgoAux, hm]
            rw [ih f' g' ((c :: rest).drop n) (by omega) (by omega) (by omega)]

/-- At the start of a recency phrase, the scanner replaces exactly the phrase
and resumes right behind it. -/
theorem replaceTimeAgoAux_at_phrase {p : List Char} (hp : IsRecencyPhrase p)
    (post : List Char) (f : Nat) (hf : (p ++ post).length ≤ f) :
    replaceTimeAgoAux f (p ++ post) =
      "TIME_AGO".data ++ replaceTimeAgoAux (f - 1) post := by
  obtain ⟨c, t, hpe, _⟩ := phrase_headDigit hp
  have hm : matchTimeAgo (p ++ post) = some p.length := by
    have h0 := matchTimeAgo_digits_phrase
      (show ∀ x ∈ ([] : List Char), isDigitChar x = true by
        intro x hx
        exact absurd hx (List.not_mem_nil x)) hp post
    simpa using h0
  subst hpe
  rw [List.cons_append] at hm hf ⊢
  simp only [List.length_cons, List.length_append] at hf
  cases f with
  | zero => omega
  | succ f' =>
    simp only [replaceTimeAgoAux, hm]
    have hdrop : (c :: (t ++ post)).drop (c :: t).length = post := by
      rw [List.length_cons, List.drop_succ_cons, List.drop_left]
    rw [hdrop, Nat.succ_sub_one]

theorem phrase_length_pos {p : List Char} (hp : IsRecencyPhrase p) : 0 < p.length := by
  obtain ⟨c, t, he, _⟩ := phrase_headDigit hp
  rw [he]
  simp

theorem replaceTimeAgoAux_subst_nil {p1 p2 : List Char} (h1 : IsRecencyPhrase p1)
    (h2 : IsRecencyPhrase p2) (post : List Char) (f g : Nat)
    (hf : (p1 ++ post).length ≤ f) (hg : (p2 ++ post).length ≤ g) :
    replaceTimeAgoAux f (p1 ++ post) = replaceTimeAgoAux g (p2 ++ post) := by
  rw [replaceTimeAgoAux_at_phrase h1 post f hf,
    replaceTimeAgoAux_at_phrase h2 post g hg]
  congr 1
  refine replaceTimeAgoAux_fuel post.length (f - 1) (g - 1) post le_rfl ?_ ?_
  · have hp := phrase_length_pos h1
    rw [List.length_append] at hf
    omega
  · have hp := phrase_length_pos h2
    rw [List.length_append] at hg
    omega

/-- Replacing one recency phrase by another between a fixed prefix and suffix
leaves the step-1 scanner output unchanged. -/
theorem replaceTimeAgoAux_subst : ∀ (k : Nat) (pre : List Char), pre.length ≤ k →
    ∀ {p1 p2 : List Char}, IsRecencyPhrase p1 → IsRecencyPhrase p2 →
    ∀ (post : List Char) (f g : Nat),
      (pre ++ (p1 ++ post)).length ≤ f → (pre ++ (p2 ++ post)).length ≤ g →
      replaceTimeAgoAux f (pre ++ (p1 ++ post)) =
        replaceTimeAgoAux g (pre ++ (p2 ++ post)) := by
  intro k
  induction k with
  | zero =>
    intro pre hpre p1 p2 h1 h2 post f g hf hg
    have hnil : pre = [] := List.length_eq_zero.mp (Nat.le_zero.mp hpre)
    subst hnil
    simp only [List.nil_append] at hf hg ⊢
    exact replaceTimeAgoAux_subst_nil h1 h2 post f g hf hg
  | succ k ih =>
    intro pre hpre p1 p2 h1 h2 post f g hf hg
    cases pre with
    | nil =>
      simp only [List.nil_append] at hf hg ⊢
      exact replaceTimeAgoAux_subst_nil h1 h2 post f g hf hg
    | cons c s =>
      simp only [List.length_cons] at hpre
      simp only [List.cons_append, List.length_cons, List.length_append] at hf hg
      cases f with
      | zero => omega
      | succ f' =>
      cases g with
      | zero => omega
      | succ g' =>
      rcases matchTimeAgo_sim h1 h2 post (c :: s) with
        ⟨hna, hnb⟩ | ⟨n, hn1, hnle, hsa, hsb⟩ | ⟨hca, hcb⟩
      · rw [List.cons_append] at hna hnb
        simp only [List.cons_append, replaceTimeAgoAux, List.append_eq, hna, hnb]
        rw [ih s (by omega) h1 h2 post f' g'
          (by rw [List.length_append, List.length_append]; omega)
          (by rw [List.length_append, List.length_append]; omega)]
      · have hdr1 : (c :: (s ++ (p1 ++ post))).drop n =
            (c :: s).drop n ++ (p1 ++ post) := by
          rw [← List.cons_append]
          exact drop_append_small hnle
        have hdr2 : (c :: (s ++ (p2 ++ post))).drop n =
            (c :: s).drop n ++ (p2 ++ post) := by
          rw [← List.cons_append]
          exact drop_append_small hnle
        rw [List.cons_append] at hsa hsb
        have hdlen : ((c :: s).drop n).length = s.length + 1 - n := by
          rw [List.length_drop, List.length_cons]
        simp only [List.cons_append, replaceTimeAgoAux, List.append_eq, hsa, hsb, hdr1, hdr2]
        rw [ih ((c :: s).drop n) (by omega) h1 h2 post f' g'
          (by rw [List.length_append, List.length_append, hdlen]; omega)
          (by rw [List.length_append, List.length_append, hdlen]; omega)]
      · have hdr1 : (c :: (s ++ (p1 ++ post))).drop ((c :: s).length + p1.length) =
            post := by
          rw [← List.cons_append, ← List.append_assoc]
          exact drop_append_len (by rw [List.length_append])
        have hdr2 : (c :: (s ++ (p2 ++ post))).drop ((c :: s).length + p2.length) =
            post := by
          rw [← List.cons_append, ← List.append_assoc]
          exact drop_append_len (by rw [List.length_append])
        rw [List.cons_append] at hca hcb
        have hp1 := phrase_length_pos h1
        have hp2 := phrase_length_pos h2
        simp only [List.cons_append, replaceTimeAgoAux, List.append_eq, hca, hcb, hdr1, hdr2]
        rw [replaceTimeAgoAux_fuel post.length f' g' post le_rfl (by omega) (by omega)]

/-- Step 1 of the normalization is invariant under substituting one recency
phrase for another. -/
theorem replaceTimeAgo_subst {p1 p2 : List Char} (h1 : IsRecencyPhrase p1)
    (h2 : IsRecencyPhrase p2) (pre post : List Char) :
    replaceTimeAgo (pre ++ (p1 ++ post)) = replaceTimeAgo (pre ++ (p2 ++ post)) :=
  replaceTimeAgoAux_subst pre.length pre le_rfl h1 h2 post _ _ le_rfl le_rfl

set_option maxRecDepth 200000 in
/-- C3 counterexample (whitespace half of the claimed invariance): two bodies
that differ only in the run length of one whitespace run — one space versus
two between `Submitted` and `by` — hash differently, because the step-6
pattern spells the literal `Submitted by` with a single space and therefore
fires on the first body but not on the second, before any whitespace
collapsing happens. -/
theorem C3_whitespace_counterexample :
    createContentHash (String.mk ("Submitted".data ++ (' ' :: []) ++ "by alice 5".data)) ≠
      createContentHash
        (String.mk ("Submitted".data ++ (' ' :: ' ' :: []) ++ "by alice 5".data)) := by
  decide

/-- C3 (amended): the fingerprint is invariant under substituting one recency
phrase for another.  For any context `pre`/`post` and any two full recency
phrases `p1`, `p2` (digits, whitespace, a unit word of
`seconds?|minutes?|hours?|days?`, whitespace, then `ago`, case-insensitively),
`createContentHash` gives the same hash: step 1 replaces either phrase by the
literal `TIME_AGO` and the rest of the pipeline sees identical text.  The
whitespace half of the original claim is refuted by
the accompanying counterexample. -/
theorem C3_recency_phrase_invariance {p1 p2 : List Char}
    (h1 : IsRecencyPhrase p1) (h2 : IsRecencyPhrase p2) (pre post : List Char) :
    createContentHash (String.mk (pre ++ (p1 ++ post))) =
      createContentHash (String.mk (pre ++ (p2 ++ post))) := by
  simp only [createContentHash, cleanTextForHash]
  rw [replaceTimeAgo_subst h1 h2 pre post]

set_option maxRecDepth 200000 in
/-- C3 witness: `...5 minutes ago...` and `...2 hours ago...` around the same
context hash identically. -/
theorem C3_recency_phrase_invariance_witness :
    IsRecencyPhrase "5 minutes ago".data ∧ IsRecencyPhrase "2 hours ago".data ∧
    createContentHash
        (String.mk ("Scam reported ".data ++ ("5 minutes ago".data ++ " by alice".data))) =
      createContentHash
        (String.mk ("Scam reported ".data ++ ("2 hours ago".data ++ " by alice".data))) := by
  have h1 : IsRecencyPhrase "5 minutes ago".data :=
    ⟨"5".data, " ".data, "minutes".data, " ".data, "ago".data, by decide, by decide,
      by decide, by decide, by decide, by decide, by decide, by decide, by decide,
      by decide⟩
  have h2 : IsRecencyPhrase "2 hours ago".data :=
    ⟨"2".data, " ".data, "hours".data, " ".data, "ago".data, by decide, by decide,
      by decide, by decide, by decide, by decide, by decide, by decide, by decide,
      by decide⟩
  exact ⟨h1, h2,
    C3_recency_phrase_invariance h1 h2 "Scam reported ".data " by alice".data⟩
